import Mathlib

/-!
Verification of `app/services/analyzer.py` from the yt-video-analyzer
repository: the subtitle cleaner, the yt-dlp command builder, the TTL
result cache and the fallback orchestrator, shallowly embedded in Lean.

Modelling conventions:
* Python strings are Lean `String`s (operated on as `List Char`);
  `str.strip()` / `str.splitlines()` are modelled over the ASCII
  whitespace and line-break characters that matter to this code.
* `time.time()` instants are rationals; the TTL (an `int` in Python
  after `max(0, int(raw))`) is an integer parameter.
* Environment variables are read into an explicit configuration record
  once; the Python code re-reads them at point of use but never mutates
  them during a request.
* The external `yt-dlp` subprocess and the LLM HTTP call are oracles:
  an extraction attempt either raises (exception message) or returns
  `(optional subtitle text, stderr)`; commands are computed by the
  embedded command builder exactly as the code does.
-/

namespace YtAnalyzer

/-- Python ASCII whitespace as used by `str.strip` and the `\s` class:
space, tab, newline, carriage return, vertical tab, form feed. -/
def pyIsSpace (c : Char) : Bool :=
  c = ' ' || c = '\t' || c = '\n' || c = '\r' || c = Char.ofNat 11 || c = Char.ofNat 12

/-- Python `str.strip()` on the leading side of a character list. -/
def dropLeadingSpace (cs : List Char) : List Char :=
  cs.dropWhile pyIsSpace

/-- Python `str.strip()` over a character list: drop leading and trailing
whitespace. -/
def stripChars (cs : List Char) : List Char :=
  ((cs.dropWhile pyIsSpace).reverse.dropWhile pyIsSpace).reverse

/-- Python `str.strip()`. -/
def pyStrip (s : String) : String :=
  String.mk (stripChars s.toList)

/-- Test that the first list starts with the second (used for Python
`str.startswith` and substring search). -/
def charsStartWith : List Char → List Char → Bool
  | _, [] => true
  | [], _ :: _ => false
  | c :: cs, d :: ds => c = d && charsStartWith cs ds

/-- Python `str.replace(" ", "")`: remove every space character (U+0020
only; other whitespace is kept, exactly as `replace` does). -/
def removeSpaces (s : String) : String :=
  String.mk (s.toList.filter (fun c => c ≠ ' '))

/-- Embedding of `_normalize_langs` (analyzer.py lines 30-34).
`default_langs` is the value of `os.getenv("YTDLP_SUB_LANGS", "ru,ru-orig")`;
`langs` is the Python argument (`None` becomes `none`). -/
def normalize_langs (default_langs : String) (langs : Option String) : String :=
  let l := langs.getD ""
  if l = "" || pyStrip l = "" || pyStrip l = "ru,en" then default_langs
  else removeSpaces l

/-- Embedding of `_fallback_langs` (lines 37-38): the raw environment
value with spaces removed. -/
def fallback_langs (env_fallback : String) : String :=
  removeSpaces env_fallback

/-- Configuration snapshot of the environment variables read by
`_build_subtitles_cmd` (analyzer.py lines 41-79). The two toggles are the
parsed boolean values of `YTDLP_MANUAL_MODE` and
`YTDLP_INCLUDE_REGULAR_SUBS`; `extractor_args` is the raw value of
`YTDLP_EXTRACTOR_ARGS`. -/
structure EnvConfig where
  sub_langs_default : String
  manual_mode : Bool
  include_regular_subs : Bool
  extractor_args : String
deriving DecidableEq

/-- Embedding of `_build_subtitles_cmd` (lines 41-79): normalizes the
language list, resolves the regular-subtitles toggle (the explicit
override wins), builds the fixed argument vector, appends extractor
arguments when configured, inserts `--write-subs` at index 2 when
regular subtitles are requested and either the override is literally
true or manual mode is off, appends the cookie argument, and ends with
the output template and URL. -/
def build_subtitles_cmd (env : EnvConfig) (url langs : String)
    (cookies_arg_path : Option String)
    (include_regular_subs_override : Option Bool) : List String :=
  let lang_list := normalize_langs env.sub_langs_default (some langs)
  let include_regular_subs := include_regular_subs_override.getD env.include_regular_subs
  let cmd0 := ["yt-dlp", "--write-auto-subs", "--sub-langs", lang_list,
    "--skip-download", "--ignore-no-formats-error", "--js-runtimes", "node",
    "--remote-components", "ejs:github"]
  let ea := pyStrip env.extractor_args
  let cmd1 := if ea ≠ "" then cmd0 ++ ["--extractor-args", ea] else cmd0
  let cmd2 :=
    if include_regular_subs &&
        (include_regular_subs_override == some true || !env.manual_mode) then
      cmd1.insertIdx 2 "--write-subs"
    else cmd1
  let cmd3 := match cookies_arg_path with
    | some p => cmd2 ++ ["--cookies", p]
    | none => cmd2
  cmd3 ++ ["-o", "%(id)s.%(ext)s", url]

/-! ### Result cache (value level)

`_ANALYZE_CACHE` maps `(url, normalized langs, stripped user prompt)` to
`(time.time(), dict(payload))`. At the value level a `dict(...)` copy is
the identity; the sharing behaviour of the shallow copy is modelled
separately at the heap level below. Payloads are the result dictionaries
built by `analyze_video`; `cache_hit` is the marker key (absent, i.e.
`false`, in every stored payload). -/
structure Payload where
  url : String
  status : String
  summary : String
  key_points : List String
  transcript : String
  debug : Option String
  cache_hit : Bool
deriving DecidableEq

abbrev CacheKey := String × String × String

abbrev Cache := List (CacheKey × (ℚ × Payload))

def cacheLookup (c : Cache) (k : CacheKey) : Option (ℚ × Payload) :=
  (c.find? (fun e => e.1 = k)).map (fun e => e.2)

def cacheInsert (c : Cache) (k : CacheKey) (v : ℚ × Payload) : Cache :=
  (k, v) :: c.filter (fun e => e.1 ≠ k)

def cacheRemove (c : Cache) (k : CacheKey) : Cache :=
  c.filter (fun e => e.1 ≠ k)

/-- Cache identity of a request (analyzer.py lines 250 and 267):
`(url, _normalize_langs(langs), (user_prompt or "").strip())`. -/
def cacheKey (default_langs url langs : String) (user_prompt : Option String) : CacheKey :=
  (url, normalize_langs default_langs (some langs), pyStrip (user_prompt.getD ""))

/-- Embedding of `_cache_get` (lines 246-260). `ttl` is the value of
`_cache_ttl_sec()`, `now` the value of `time.time()`. Returns the value
produced and the store after the call (the Python code mutates the
global store when it evicts an expired entry). -/
def cache_get (ttl : ℤ) (default_langs : String) (c : Cache) (now : ℚ)
    (url langs : String) (user_prompt : Option String) : Option Payload × Cache :=
  if ttl ≤ 0 then (none, c)
  else
    let key := cacheKey default_langs url langs user_prompt
    match cacheLookup c key with
    | none => (none, c)
    | some (ts, payload) =>
      if (ttl : ℚ) < now - ts then (none, cacheRemove c key)
      else (some payload, c)

/-- Embedding of `_cache_put` (lines 263-269). -/
def cache_put (ttl : ℤ) (default_langs : String) (c : Cache) (now : ℚ)
    (url langs : String) (payload : Payload) (user_prompt : Option String) : Cache :=
  if ttl ≤ 0 then c
  else cacheInsert c (cacheKey default_langs url langs user_prompt) (now, payload)

/-- Embedding of the cache-hit path of `analyze_video` (lines 331-338):
a successful lookup gets the `cache_hit` marker added before being
returned. -/
def analyze_cache_lookup (ttl : ℤ) (default_langs : String) (c : Cache) (now : ℚ)
    (url langs : String) (user_prompt : Option String) : Option Payload × Cache :=
  match cache_get ttl default_langs c now url langs user_prompt with
  | (some cached, c2) => (some { cached with cache_hit := true }, c2)
  | (none, c2) => (none, c2)

/-! ### Result cache (heap level)

`_cache_put` stores `dict(payload)` and `_cache_get` returns
`dict(payload)`: both are Python shallow copies. To settle what a
shallow copy shares, Python objects are modelled as a heap of objects
addressed by allocation index; a dict holds references to its values,
and `dict(d)` allocates a new dict object with the same references. -/
inductive PyObj where
  | vstr : String → PyObj
  | vbool : Bool → PyObj
  | vlist : List Nat → PyObj
  | vdict : List (String × Nat) → PyObj
deriving DecidableEq

abbrev Heap := List PyObj

def heapGet (h : Heap) (a : Nat) : Option PyObj := h[a]?

def heapSet (h : Heap) (a : Nat) (o : PyObj) : Heap := h.set a o

/-- Entries of the dict object at address `a` (empty when `a` does not
hold a dict). -/
def dictEntries (h : Heap) (a : Nat) : List (String × Nat) :=
  match heapGet h a with
  | some (.vdict es) => es
  | _ => []

/-- Python `dict(d)`: allocate a fresh dict object holding the same
key-to-reference entries. Returns the heap and the fresh address. -/
def dictShallowCopy (h : Heap) (a : Nat) : Heap × Nat :=
  (h ++ [.vdict (dictEntries h a)], h.length)

/-- Rebinding a top-level key of a dict: `d[k] = v`. Only the dict
object itself changes; no other heap cell is touched. -/
def dictSetKey (h : Heap) (a : Nat) (k : String) (v : Nat) : Heap :=
  match heapGet h a with
  | some (.vdict es) => heapSet h a (.vdict ((k, v) :: es.filter (fun e => e.1 ≠ k)))
  | _ => h

/-- Deeply read the value graph reachable from an address, to a given
depth. Two addresses hold equivalent values exactly when their deep
reads agree at every depth. -/
inductive PyVal where
  | vstr : String → PyVal
  | vbool : Bool → PyVal
  | vlist : List PyVal → PyVal
  | vdict : List (String × PyVal) → PyVal
  | invalid : PyVal

def readDeep (h : Heap) : Nat → Nat → PyVal
  | 0, _ => .invalid
  | fuel + 1, a =>
    match heapGet h a with
    | some (.vstr s) => .vstr s
    | some (.vbool b) => .vbool b
    | some (.vlist xs) => .vlist (xs.map (readDeep h fuel))
    | some (.vdict es) => .vdict (es.map (fun e => (e.1, readDeep h fuel e.2)))
    | none => .invalid

/-- Heap-level `_cache_put` body (line 269): store the shallow copy with
the timestamp. The store maps cache keys to payload addresses. -/
def cache_put_heap (h : Heap) (store : List (CacheKey × (ℚ × Nat))) (key : CacheKey)
    (now : ℚ) (payload : Nat) : Heap × List (CacheKey × (ℚ × Nat)) :=
  let copy := dictShallowCopy h payload
  (copy.1, (key, (now, copy.2)) :: store.filter (fun e => e.1 ≠ key))

/-- Heap-level `_cache_get` hit path (line 260): return a shallow copy
of the stored payload. -/
def cache_get_heap (h : Heap) (stored : Nat) : Heap × Nat :=
  dictShallowCopy h stored

/-- References held by a heap object. -/
def objRefs : PyObj → List Nat
  | .vstr _ => []
  | .vbool _ => []
  | .vlist xs => xs
  | .vdict es => es.map (fun e => e.2)

/-- A heap is well formed when every reference points below the
allocation frontier. -/
def heapWF (h : Heap) : Prop :=
  ∀ o ∈ h, ∀ a ∈ objRefs o, a < h.length

/-! ### Subtitle cleaner

Embedding of `_clean_vtt` (analyzer.py lines 213-235). Lines are split
as `str.splitlines()` does on `\n`, `\r\n` and `\r` (the exotic Unicode
line breaks accepted by Python do not occur in subtitle files and are
not modelled). The timing regex
`^\d{2}:\d{2}:\d{2}\.\d{3}\s+-->\s+\d{2}:\d{2}:\d{2}\.\d{3}` is a
deterministic matcher (ASCII digits and whitespace); `re.sub("<[^>]+>", "")`
is the single-pass leftmost-match tag remover `stripTagsGo`. -/
def splitLinesAux : List Char → List Char → List String
  | [], acc => if acc.isEmpty then [] else [String.mk acc.reverse]
  | '\r' :: '\n' :: rest, acc => String.mk acc.reverse :: splitLinesAux rest []
  | '\r' :: rest, acc => String.mk acc.reverse :: splitLinesAux rest []
  | '\n' :: rest, acc => String.mk acc.reverse :: splitLinesAux rest []
  | c :: rest, acc => splitLinesAux rest (c :: acc)

/-- Python `str.splitlines()` restricted to `\n`, `\r\n`, `\r`. -/
def pySplitlines (s : String) : List String :=
  splitLinesAux s.toList []

def matchChar (ch : Char) : List Char → Option (List Char)
  | [] => none
  | c :: cs => if c = ch then some cs else none

def matchDigits : Nat → List Char → Option (List Char)
  | 0, cs => some cs
  | _ + 1, [] => none
  | n + 1, c :: cs => if c.isDigit then matchDigits n cs else none

def matchSpaces1 : List Char → Option (List Char)
  | [] => none
  | c :: cs => if pyIsSpace c then some (cs.dropWhile pyIsSpace) else none

/-- Matcher for `\d{2}:\d{2}:\d{2}\.\d{3}`. -/
def matchStamp (cs : List Char) : Option (List Char) :=
  ((((((matchDigits 2 cs).bind (matchChar ':')).bind
    (matchDigits 2)).bind (matchChar ':')).bind
    (matchDigits 2)).bind (matchChar '.')).bind (matchDigits 3)

/-- Anchored (prefix) match of the timing-range pattern, as `ts.match`
does: positioning metadata after the second stamp is allowed. -/
def tsMatch (s : String) : Bool :=
  match ((((((matchStamp s.toList).bind matchSpaces1).bind
      (matchChar '-')).bind (matchChar '-')).bind
      (matchChar '>')).bind matchSpaces1).bind matchStamp with
  | some _ => true
  | none => false

/-- Single pass of `re.sub(r"<[^>]+>", "", line)`: outside a potential
tag (`none`) characters are copied; after an unclosed `<` the pending
characters are buffered (`some content`); a `>` closing a nonempty
buffer removes the whole tag, a `>` right after `<` matches nothing
(the regex needs at least one character between the brackets), and a
buffer still pending at the end of the line matches nothing. -/
def stripTagsGo : Option (List Char) → List Char → List Char
  | none, [] => []
  | some content, [] => '<' :: content
  | none, c :: rest =>
    if c = '<' then stripTagsGo (some []) rest else c :: stripTagsGo none rest
  | some content, c :: rest =>
    if c = '>' then
      if content.isEmpty then '<' :: '>' :: stripTagsGo none rest
      else stripTagsGo none rest
    else stripTagsGo (some (content ++ [c])) rest

def stripTags (s : String) : String :=
  String.mk (stripTagsGo none s.toList)

/-- Test for the header markers dropped by `_clean_vtt`. -/
def headerLine (ln : String) : Bool :=
  charsStartWith ln.toList ("WEBVTT").toList ||
  charsStartWith ln.toList ("Kind:").toList ||
  charsStartWith ln.toList ("Language:").toList

/-- First loop of `_clean_vtt`: strip each line, drop empty lines and
header lines, drop timing lines, strip tags, keep what is left when
nonempty. -/
def cleanedOf : List String → List String
  | [] => []
  | ln0 :: rest =>
    let ln := pyStrip ln0
    if ln = "" || headerLine ln then cleanedOf rest
    else if tsMatch ln then cleanedOf rest
    else
      let ln2 := stripTags ln
      if ln2 = "" then cleanedOf rest else ln2 :: cleanedOf rest

/-- Second loop of `_clean_vtt`: drop a line equal to its immediate
predecessor (`prev` starts as the empty string and is updated to the
current line in both branches). -/
def dedupAdjacentAux (prev : String) : List String → List String
  | [] => []
  | ln :: rest =>
    if ln ≠ prev then ln :: dedupAdjacentAux ln rest
    else dedupAdjacentAux ln rest

def dedupAdjacent (lines : List String) : List String :=
  dedupAdjacentAux "" lines

/-- Python `"\n".join`. -/
def joinNl : List String → String
  | [] => ""
  | [x] => x
  | x :: rest => x ++ "\n" ++ joinNl rest

/-- Embedding of `_clean_vtt` (lines 213-235). -/
def clean_vtt (text : String) : String :=
  pyStrip (joinNl (dedupAdjacent (cleanedOf (pySplitlines text))))

/-! ### Fallback orchestrator

Embedding of `analyze_video` (analyzer.py lines 326-491). The yt-dlp
subprocess and the filesystem are external: each of the four extraction
states is an oracle that either raises (`Except.error` with the
exception message) or returns the optional subtitle text and the stderr
of the run. The LLM call is an oracle from the transcript to
`(summary, key_points)`. Commands are computed by the embedded
`build_subtitles_cmd`; `cookies_path` is the value `_prepare_cookies_path`
returned inside `_extract_subtitles`. `time.time()` is modelled as one
instant per request. The `file_debug` dictionary and the
`debug_info`/`stderr_full` assembly are not modelled beyond the `debug`
tail; the `stderr` variable (the newline-joined diagnostics) and the
`used_cmd` variable are returned as first-class results. -/
structure ExtractOk where
  raw_subs : Option String
  stderr : String
deriving DecidableEq

abbrev ExtractResult := Except String ExtractOk

structure RuntimeConfig where
  env : EnvConfig
  sub_langs_fallback : String
  fallback_regular_on_empty : Bool
  fallback_langs_on_empty : Bool
  cookies_path : Option String
  ttl : ℤ
  debug_mode : Bool

/-- Python falsiness of the `raw_subs` value (`None` or `""`). -/
def pyFalsyStr : Option String → Bool
  | none => true
  | some s => s = ""

/-- State threaded through the fallback attempts: the current
`raw_subs`, the accumulated `stderr` and the current `used_cmd`. -/
structure OrchState where
  raw : Option String
  stderr : String
  cmd : List String
deriving DecidableEq

/-- One fallback attempt (each of the three `if not raw_subs and ...:`
blocks at lines 384-436): when the attempt runs and does not raise, the
new `raw_subs` is taken as is, the attempt's stderr is newline-appended
and `used_cmd` becomes the attempt's command; a raised failure is caught
and leaves all three variables untouched. -/
def fbStep (cond : Bool) (cmd : List String) (st : OrchState) (o : ExtractResult) : OrchState :=
  if pyFalsyStr st.raw && cond then
    match o with
    | .error _ => st
    | .ok r => ⟨r.raw_subs, st.stderr ++ "\n" ++ r.stderr, cmd⟩
  else st

/-- Python `s[-n:]`. -/
def pyTail (n : Nat) (s : String) : String :=
  String.mk (s.toList.drop (s.toList.length - n))

/-- Substring test: Python `needle in hay` (charsContain hay needle). -/
def charsContain : List Char → List Char → Bool
  | hay, needle =>
    if charsStartWith hay needle then true
    else
      match hay with
      | [] => false
      | _ :: rest => charsContain rest needle

def pyInStr (needle hay : String) : Bool :=
  charsContain hay.toList needle.toList

/-- Bot-detection phrase with the U+2019 right single quotation mark. -/
def botPhraseCurly : String :=
  "Sign in to confirm you" ++ String.mk [Char.ofNat 8217] ++ "re not a bot"

/-- Bot-detection phrase with the ASCII apostrophe (U+0027). -/
def botPhraseAscii : String :=
  "Sign in to confirm you" ++ String.mk [Char.ofNat 39] ++ "re not a bot"

/-- Classification of a first-attempt failure (lines 359-362). -/
def classify_extract_status (msg : String) : String :=
  if pyInStr botPhraseCurly msg || pyInStr botPhraseAscii msg then "blocked_by_youtube"
  else "extract_error"

def errSummary : String := "Не удалось получить субтитры с YouTube."

def noSubsSummary : String :=
  "Субтитры не найдены. Нужен fallback через Whisper (ещё не реализован)."

/-- Outcome of one `analyze_video` call: the result dictionary, the
final value of the `stderr` variable (`none` when the first attempt
raised and it was never assigned) and the final `used_cmd` (`none`
likewise). -/
structure OrchResult where
  out : Payload
  stderr_acc : Option String
  used_cmd : Option (List String)
deriving DecidableEq

/-- Enabling condition of fallback state 3 (line 402):
`fallback_langs_on_empty and fallback_langs and fallback_langs != primary_langs`
(without the leading `not raw_subs`, which `fbStep` checks). -/
def cond3 (cfg : RuntimeConfig) (primary_langs fb_langs : String) : Bool :=
  cfg.fallback_langs_on_empty && (fb_langs != "") && (fb_langs != primary_langs)

/-- Enabling condition of fallback state 4 (line 420). -/
def cond4 (cfg : RuntimeConfig) (primary_langs fb_langs : String) : Bool :=
  cfg.fallback_regular_on_empty && cfg.fallback_langs_on_empty &&
    (fb_langs != "") && (fb_langs != primary_langs)

/-- The three guarded fallback attempts (lines 384-436) applied to the
state after the first attempt. -/
def orchChain (cfg : RuntimeConfig) (url primary_langs fb_langs : String)
    (st1 : OrchState) (o2 o3 o4 : ExtractResult) : OrchState :=
  let st2 := fbStep cfg.fallback_regular_on_empty
    (build_subtitles_cmd cfg.env url primary_langs cfg.cookies_path (some true)) st1 o2
  let st3 := fbStep (cond3 cfg primary_langs fb_langs)
    (build_subtitles_cmd cfg.env url fb_langs cfg.cookies_path (some false)) st2 o3
  fbStep (cond4 cfg primary_langs fb_langs)
    (build_subtitles_cmd cfg.env url fb_langs cfg.cookies_path (some true)) st3 o4

/-- The terminal result builders of `analyze_video` after the fallback
chain (lines 441-485): `no_subtitles` when no text was produced,
otherwise cleaning, summarization and an `ok` result; both are stored
with `_cache_put`. -/
def orchFinish (cfg : RuntimeConfig) (c : Cache) (now : ℚ) (url langs : String)
    (user_prompt : Option String) (llm : String → String × List String)
    (st : OrchState) : OrchResult × Cache :=
  if pyFalsyStr st.raw then
    let out : Payload := ⟨url, "no_subtitles", noSubsSummary, [], "",
      if cfg.debug_mode && !(st.stderr == "") then some (pyTail 3000 st.stderr)
      else none, false⟩
    (⟨out, some st.stderr, some st.cmd⟩,
     cache_put cfg.ttl cfg.env.sub_langs_default c now url langs out user_prompt)
  else
    let transcript := clean_vtt (st.raw.getD "")
    let s := llm transcript
    let out : Payload := ⟨url, "ok", s.1, s.2, transcript,
      if cfg.debug_mode && !(st.stderr == "") then some (pyTail 1000 st.stderr)
      else none, false⟩
    (⟨out, some st.stderr, some st.cmd⟩,
     cache_put cfg.ttl cfg.env.sub_langs_default c now url langs out user_prompt)

/-- Embedding of `analyze_video` after a cache miss (lines 340-491):
the first extraction attempt with its exception handler, then the three
guarded fallback attempts, then the terminal result builders. -/
def analyze_extraction (cfg : RuntimeConfig) (c : Cache) (now : ℚ) (url langs : String)
    (user_prompt : Option String) (o1 o2 o3 o4 : ExtractResult)
    (llm : String → String × List String) : OrchResult × Cache :=
  let primary_langs := normalize_langs cfg.env.sub_langs_default (some langs)
  let fb_langs := fallback_langs cfg.sub_langs_fallback
  match o1 with
  | .error msg =>
    let status := classify_extract_status msg
    let out : Payload := ⟨url, status, errSummary, [], "",
      if cfg.debug_mode then some (pyTail 3000 msg) else none, false⟩
    (⟨out, none, none⟩,
     cache_put cfg.ttl cfg.env.sub_langs_default c now url langs out user_prompt)
  | .ok r1 =>
    let st1 : OrchState := ⟨r1.raw_subs, r1.stderr,
      build_subtitles_cmd cfg.env url primary_langs cfg.cookies_path none⟩
    orchFinish cfg c now url langs user_prompt llm
      (orchChain cfg url primary_langs fb_langs st1 o2 o3 o4)

/-- Embedding of `analyze_video` (lines 326-491): the cache lookup with
the `cache_hit` marker, then the extraction pipeline on a miss. -/
def analyze_video (cfg : RuntimeConfig) (c : Cache) (now : ℚ) (url langs : String)
    (user_prompt : Option String) (o1 o2 o3 o4 : ExtractResult)
    (llm : String → String × List String) : OrchResult × Cache :=
  match analyze_cache_lookup cfg.ttl cfg.env.sub_langs_default c now url langs user_prompt with
  | (some cached, c1) => (⟨cached, none, none⟩, c1)
  | (none, c1) => analyze_extraction cfg c1 now url langs user_prompt o1 o2 o3 o4 llm

/-- Relation between two orchestration states that the escalation cannot
distinguish: equal subtitle text, or text missing on both sides. -/
def rawEquiv (st st2 : OrchState) : Prop :=
  st.raw = st2.raw ∨ (pyFalsyStr st.raw = true ∧ pyFalsyStr st2.raw = true)

/-- Observable core of a result: status, summary, key points and
transcript (the debug tail is excluded). -/
def outCore (p : Payload) : String × String × List String × String :=
  (p.status, p.summary, p.key_points, p.transcript)

/-- Splitter at the first `>`: `some (before, after)` when a `>` occurs,
`none` otherwise. Used to state what an angle-bracket tag is: a `<`
whose first following `>` is not immediately adjacent. -/
def gtSplit : List Char → Option (List Char × List Char)
  | [] => none
  | '>' :: rest => some ([], rest)
  | c :: rest => (gtSplit rest).map (fun p => (c :: p.1, p.2))

/-- Occurrence test for the regex `<[^>]+>`: some `<` is followed by at
least one non-`>` character and then a `>`. -/
def hasTagChars : List Char → Bool
  | [] => false
  | c :: rest =>
    (if c = '<' then
      match gtSplit rest with
      | some (before, _) => !before.isEmpty
      | none => false
    else false) || hasTagChars rest

/-! ### Properties -/

example : normalize_langs "ru,ru-orig" (some "ru,en") = "ru,ru-orig" := by decide

example : normalize_langs "ru,ru-orig" none = "ru,ru-orig" := by decide

example : normalize_langs "ru,ru-orig" (some "  ") = "ru,ru-orig" := by decide

example : normalize_langs "ru,ru-orig" (some "en, fr") = "en,fr" := by decide

example : normalize_langs "ru,ru-orig" (some " ru,en ") = "ru,ru-orig" := by decide

lemma dropWhile_all_iff (p : Char → Bool) (cs : List Char) :
    (∀ c ∈ cs.dropWhile p, p c) ↔ ∀ c ∈ cs, p c := by
  induction cs with
  | nil => simp
  | cons x xs ih =>
    by_cases hx : p x
    · simp [List.dropWhile_cons, hx, ih]
    · simp [List.dropWhile_cons, hx]

lemma stripChars_eq_nil_iff (cs : List Char) :
    stripChars cs = [] ↔ ∀ c ∈ cs, pyIsSpace c := by
  rw [stripChars, List.reverse_eq_nil_iff, List.dropWhile_eq_nil_iff]
  simp only [List.mem_reverse]
  exact dropWhile_all_iff pyIsSpace cs

example :
    build_subtitles_cmd ⟨"ru,ru-orig", false, true, ""⟩ "u" "ru" none none =
      ["yt-dlp", "--write-auto-subs", "--write-subs", "--sub-langs", "ru",
       "--skip-download", "--ignore-no-formats-error", "--js-runtimes", "node",
       "--remote-components", "ejs:github", "-o", "%(id)s.%(ext)s", "u"] := by decide

example :
    build_subtitles_cmd ⟨"ru,ru-orig", true, true, ""⟩ "u" "ru" (some "/tmp/c.txt") none =
      ["yt-dlp", "--write-auto-subs", "--sub-langs", "ru",
       "--skip-download", "--ignore-no-formats-error", "--js-runtimes", "node",
       "--remote-components", "ejs:github", "--cookies", "/tmp/c.txt",
       "-o", "%(id)s.%(ext)s", "u"] := by decide

/-- C9 counterexample: the input "en,\tfr" is neither empty, nor
whitespace-only, nor the sentinel default, so the claim says it is mapped
to itself with internal whitespace removed; the code only removes space
characters, so the tab survives and the output still contains
whitespace. -/
theorem c9_counterexample :
    normalize_langs "ru,ru-orig" (some "en,\tfr") = "en,\tfr" ∧
    ("en,\tfr").toList.any pyIsSpace = true := by decide

/-- C9 (amended): `_normalize_langs` maps an empty, whitespace-only, or
sentinel-default ("ru,en", compared after stripping) input to the
configured default language list, and maps any other input to itself
with all space characters (U+0020) removed; other whitespace characters
such as tabs are kept. -/
theorem c9_normalize_langs (d l : String) :
    normalize_langs d none = d ∧
    ((∀ c ∈ l.toList, pyIsSpace c) → normalize_langs d (some l) = d) ∧
    (pyStrip l = "ru,en" → normalize_langs d (some l) = d) ∧
    ((¬ ∀ c ∈ l.toList, pyIsSpace c) → pyStrip l ≠ "ru,en" →
      normalize_langs d (some l) = String.mk (l.toList.filter (fun c => c ≠ ' '))) := by
  refine ⟨by simp [normalize_langs], ?_, ?_, ?_⟩
  · intro h
    have hs : pyStrip l = "" := by
      show String.mk (stripChars l.toList) = ""
      rw [(stripChars_eq_nil_iff l.toList).mpr h]
    simp [normalize_langs, hs]
  · intro h
    simp [normalize_langs, h]
  · intro h1 h2
    have hs : pyStrip l ≠ "" := by
      intro hc
      apply h1
      apply (stripChars_eq_nil_iff l.toList).mp
      have h' : (pyStrip l).toList = stripChars l.toList := rfl
      rw [← h', hc]
      rfl
    have hl : l ≠ "" := by
      intro hc
      apply h1
      rw [hc]
      intro c hc2
      simp at hc2
    simp [normalize_langs, hl, hs, h2, removeSpaces]

/-- C9 witness: the amended theorem applied at a concrete non-default
input containing an internal space. -/
theorem c9_normalize_langs_witness :
    normalize_langs "ru,ru-orig" (some "en, fr") =
      String.mk (("en, fr").toList.filter (fun c => c ≠ ' ')) :=
  (c9_normalize_langs "ru,ru-orig" "en, fr").2.2.2 (by decide) (by decide)

/-- C10: calling `_build_subtitles_cmd` with
`include_regular_subs_override = False` never puts `--write-subs` into
the produced command, whatever the `YTDLP_INCLUDE_REGULAR_SUBS` and
`YTDLP_MANUAL_MODE` toggles are (the hypotheses only rule out the
degenerate case of a data argument that is literally the string
"--write-subs"). -/
theorem c10_override_false_no_write_subs (env : EnvConfig) (url langs : String)
    (cookies : Option String)
    (h1 : url ≠ "--write-subs")
    (h2 : normalize_langs env.sub_langs_default (some langs) ≠ "--write-subs")
    (h3 : pyStrip env.extractor_args ≠ "--write-subs")
    (h4 : ∀ p, cookies = some p → p ≠ "--write-subs") :
    "--write-subs" ∉ build_subtitles_cmd env url langs cookies (some false) := by
  unfold build_subtitles_cmd
  simp only [Option.getD_some, Bool.false_and, if_neg (by simp : ¬ (false = true))]
  rcases cookies with _ | p
  · by_cases hea : pyStrip env.extractor_args ≠ ""
    · simp [hea, h1, h2, h3, Ne.symm h1, Ne.symm h2, Ne.symm h3]
    · simp at hea
      simp [hea, h1, h2, Ne.symm h1, Ne.symm h2]
  · have hp := h4 p rfl
    by_cases hea : pyStrip env.extractor_args ≠ ""
    · simp [hea, h1, h2, h3, hp, Ne.symm h1, Ne.symm h2, Ne.symm h3, Ne.symm hp]
    · simp at hea
      simp [hea, h1, h2, hp, Ne.symm h1, Ne.symm h2, Ne.symm hp]

/-- C10 witness: the theorem applied at a concrete configuration with
both toggles on. -/
theorem c10_override_false_no_write_subs_witness :
    "--write-subs" ∉
      build_subtitles_cmd ⟨"ru,ru-orig", true, true, ""⟩ "https://youtu.be/abc"
        "ru,en" none (some false) :=
  c10_override_false_no_write_subs ⟨"ru,ru-orig", true, true, ""⟩ "https://youtu.be/abc"
    "ru,en" none (by decide) (by decide) (by decide)
    (by intro p hp _; cases hp)

lemma cacheLookup_insert (c : Cache) (k : CacheKey) (v : ℚ × Payload) :
    cacheLookup (cacheInsert c k v) k = some v := by
  simp [cacheLookup, cacheInsert, List.find?_cons]

lemma cacheLookup_remove (c : Cache) (k : CacheKey) :
    cacheLookup (cacheRemove c k) k = none := by
  have h : (cacheRemove c k).find? (fun e => e.1 = k) = none := by
    rw [List.find?_eq_none]
    intro x hx
    have := List.of_mem_filter hx
    simpa using this
  simp [cacheLookup, h]

/-- C1: with a positive TTL, a `put` followed by a `get` for the same
identity within the TTL returns the stored payload with the `cache_hit`
marker added; a `get` whose entry's age exceeds the TTL returns nothing
and removes the entry from the store; with TTL ≤ 0, `get` always returns
nothing and `put` stores nothing. -/
theorem c1_cache_ttl (ttl : ℤ) (d : String) (c : Cache) (t t2 : ℚ)
    (url langs : String) (up : Option String) (p : Payload) :
    (0 < ttl → t2 - t ≤ (ttl : ℚ) →
      analyze_cache_lookup ttl d (cache_put ttl d c t url langs p up) t2 url langs up
        = (some { p with cache_hit := true },
           cache_put ttl d c t url langs p up)) ∧
    (∀ ts q, 0 < ttl → cacheLookup c (cacheKey d url langs up) = some (ts, q) →
      (ttl : ℚ) < t2 - ts →
      cache_get ttl d c t2 url langs up
          = (none, cacheRemove c (cacheKey d url langs up)) ∧
      cacheLookup (cacheRemove c (cacheKey d url langs up))
          (cacheKey d url langs up) = none) ∧
    (ttl ≤ 0 →
      cache_get ttl d c t2 url langs up = (none, c) ∧
      cache_put ttl d c t url langs p up = c) := by
  refine ⟨?_, ?_, ?_⟩
  · intro hpos hage
    have hn0 : ¬ ttl ≤ 0 := by omega
    unfold cache_put
    rw [if_neg hn0]
    unfold analyze_cache_lookup cache_get
    rw [if_neg hn0]
    simp only [cacheLookup_insert]
    rw [if_neg (by linarith)]
  · intro ts q hpos hlook hage
    have hn : ¬ ttl ≤ 0 := by omega
    constructor
    · unfold cache_get
      rw [if_neg hn]
      simp only [hlook]
      rw [if_pos hage]
    · exact cacheLookup_remove c _
  · intro hle
    exact ⟨by unfold cache_get; rw [if_pos hle], by unfold cache_put; rw [if_pos hle]⟩

/-- C1 witness: the three conjuncts exercised at concrete instants with
TTL 900: a hit one second after the put, an eviction 1000 seconds after
the put, and the disabled cache at TTL 0. -/
theorem c1_cache_ttl_witness :
    (analyze_cache_lookup 900 "ru"
        (cache_put 900 "ru" [] 0 "u" "ru" ⟨"u", "ok", "s", [], "t", none, false⟩ none)
        1 "u" "ru" none
      = (some ⟨"u", "ok", "s", [], "t", none, true⟩,
         cache_put 900 "ru" [] 0 "u" "ru" ⟨"u", "ok", "s", [], "t", none, false⟩ none)) ∧
    (cache_get 900 "ru"
        [((("u", "ru", "")), (0, ⟨"u", "ok", "s", [], "t", none, false⟩))] 1000 "u" "ru" none
      = (none, []) ∧
     cacheLookup ([] : Cache) ("u", "ru", "") = none) ∧
    (cache_get 0 "ru" [] 1 "u" "ru" none = (none, []) ∧
     cache_put 0 "ru" [] 1 "u" "ru" ⟨"u", "ok", "s", [], "t", none, false⟩ none = []) := by
  refine ⟨?_, ?_, ?_⟩
  · exact (c1_cache_ttl 900 "ru" [] 0 1 "u" "ru" none
      ⟨"u", "ok", "s", [], "t", none, false⟩).1 (by decide) (by norm_num)
  · have h := (c1_cache_ttl 900 "ru"
      [((("u", "ru", "")), (0, ⟨"u", "ok", "s", [], "t", none, false⟩))] 0 1000 "u" "ru" none
      ⟨"u", "ok", "s", [], "t", none, false⟩).2.1 0 ⟨"u", "ok", "s", [], "t", none, false⟩
      (by decide) (by decide) (by norm_num)
    simpa [cacheKey, cacheRemove, normalize_langs, pyStrip, stripChars] using h
  · have h := (c1_cache_ttl 0 "ru" [] 1 1 "u" "ru" none
      ⟨"u", "ok", "s", [], "t", none, false⟩).2.2 (by decide)
    exact h

/-- Deep reads only depend on the heap cells below a frontier `k` that
is closed under references; two heaps agreeing below `k` give the same
deep read from any address below `k`. -/
lemma readDeep_agree (h1 h2 : Heap) (k : Nat)
    (hagree : ∀ i, i < k → heapGet h1 i = heapGet h2 i)
    (hclosed : ∀ i, i < k → ∀ o, heapGet h1 i = some o → ∀ a ∈ objRefs o, a < k) :
    ∀ fuel a, a < k → readDeep h1 fuel a = readDeep h2 fuel a := by
  intro fuel
  induction fuel with
  | zero => intro a _; rfl
  | succ n ih =>
    intro a ha
    have hga := hagree a ha
    show readDeep h1 (n + 1) a = readDeep h2 (n + 1) a
    unfold readDeep
    rw [← hga]
    cases ho : heapGet h1 a with
    | none => rfl
    | some o =>
      cases o with
      | vstr s => rfl
      | vbool b => rfl
      | vlist xs =>
        have hrefs := hclosed a ha _ ho
        simp only [PyVal.vlist.injEq]
        apply List.map_congr_left
        intro x hx
        exact ih x (hrefs x (by simpa [objRefs] using hx))
      | vdict es =>
        have hrefs := hclosed a ha _ ho
        simp only [PyVal.vdict.injEq]
        apply List.map_congr_left
        intro e he
        have : e.2 < k := hrefs e.2 (by
          simp only [objRefs, List.mem_map]
          exact ⟨e, he, rfl⟩)
        rw [ih e.2 this]

/-- C2 counterexample: store a payload `{"key_points": l}` where `l` is
a heap-allocated list; `put` and `get` only make top-level copies, so
the dictionary returned by `get` still references the same list object,
and mutating that nested list changes the entry held in the cache
(address 3, allocated by `put`). -/
theorem c2_counterexample :
    cache_put_heap [.vstr "p1", .vlist [0], .vdict [("key_points", 1)]] []
        ("u", "ru", "") 0 2
      = ([.vstr "p1", .vlist [0], .vdict [("key_points", 1)],
          .vdict [("key_points", 1)]],
         [(("u", "ru", ""), (0, 3))]) ∧
    cache_get_heap [.vstr "p1", .vlist [0], .vdict [("key_points", 1)],
        .vdict [("key_points", 1)]] 3
      = ([.vstr "p1", .vlist [0], .vdict [("key_points", 1)],
          .vdict [("key_points", 1)], .vdict [("key_points", 1)]], 4) ∧
    dictEntries [.vstr "p1", .vlist [0], .vdict [("key_points", 1)],
        .vdict [("key_points", 1)], .vdict [("key_points", 1)]] 4
      = [("key_points", 1)] ∧
    readDeep (heapSet [.vstr "p1", .vlist [0], .vdict [("key_points", 1)],
        .vdict [("key_points", 1)], .vdict [("key_points", 1)]] 1 (.vlist [0, 0])) 5 3
      ≠ readDeep [.vstr "p1", .vlist [0], .vdict [("key_points", 1)],
        .vdict [("key_points", 1)], .vdict [("key_points", 1)]] 5 3 := by
  refine ⟨rfl, rfl, rfl, ?_⟩
  have h1 : readDeep (heapSet [.vstr "p1", .vlist [0], .vdict [("key_points", 1)],
      .vdict [("key_points", 1)], .vdict [("key_points", 1)]] 1 (.vlist [0, 0])) 5 3
      = .vdict [("key_points", .vlist [.vstr "p1", .vstr "p1"])] := rfl
  have h2 : readDeep [.vstr "p1", .vlist [0], .vdict [("key_points", 1)],
      .vdict [("key_points", 1)], .vdict [("key_points", 1)]] 5 3
      = .vdict [("key_points", .vlist [.vstr "p1"])] := rfl
  rw [h1, h2]
  simp

/-- C2 (amended): the cache stores and returns top-level (shallow)
copies: the stored entry, the caller's payload and the dictionary
returned by `get` are three distinct objects, and rebinding a top-level
key of the returned dictionary never changes the entry held in the
cache; nested values (such as `key_points` or `debug_info`) are shared
by reference, so mutating them through the returned dictionary does
change the stored entry (see the counterexample). -/
theorem c2_shallow_copy (h : Heap) (store : List (CacheKey × (ℚ × Nat))) (key : CacheKey)
    (now : ℚ) (p : Nat) (hwf : heapWF h) (hp : p < h.length)
    (k : String) (v : Nat) (fuel : Nat) :
    (cache_put_heap h store key now p).2
        = (key, (now, h.length)) :: store.filter (fun e => e.1 ≠ key) ∧
    h.length ≠ p ∧
    (cache_get_heap (cache_put_heap h store key now p).1 h.length).2 ≠ h.length ∧
    (cache_get_heap (cache_put_heap h store key now p).1 h.length).2 ≠ p ∧
    readDeep (dictSetKey (cache_get_heap (cache_put_heap h store key now p).1 h.length).1
        (cache_get_heap (cache_put_heap h store key now p).1 h.length).2 k v) fuel h.length
      = readDeep (cache_get_heap (cache_put_heap h store key now p).1 h.length).1
          fuel h.length := by
  have hput1 : (cache_put_heap h store key now p).1
      = h ++ [PyObj.vdict (dictEntries h p)] := rfl
  have hd1 : dictEntries (h ++ [PyObj.vdict (dictEntries h p)]) h.length
      = dictEntries h p := by
    simp [dictEntries, heapGet, List.getElem?_concat_length]
  have hget1 : (cache_get_heap (cache_put_heap h store key now p).1 h.length).1
      = (h ++ [PyObj.vdict (dictEntries h p)]) ++ [PyObj.vdict (dictEntries h p)] := by
    rw [hput1]
    show ((h ++ [PyObj.vdict (dictEntries h p)])
        ++ [PyObj.vdict (dictEntries (h ++ [PyObj.vdict (dictEntries h p)]) h.length)]) = _
    rw [hd1]
  have hget2 : (cache_get_heap (cache_put_heap h store key now p).1 h.length).2
      = h.length + 1 := by
    rw [hput1]
    show (h ++ [PyObj.vdict (dictEntries h p)]).length = _
    simp
  refine ⟨rfl, by omega, by rw [hget2]; omega, by rw [hget2]; omega, ?_⟩
  rw [hget1, hget2]
  have hretget : heapGet ((h ++ [PyObj.vdict (dictEntries h p)])
      ++ [PyObj.vdict (dictEntries h p)]) (h.length + 1)
      = some (PyObj.vdict (dictEntries h p)) := by
    have hlen : (h ++ [PyObj.vdict (dictEntries h p)]).length = h.length + 1 := by simp
    show ((h ++ [PyObj.vdict (dictEntries h p)])
        ++ [PyObj.vdict (dictEntries h p)])[h.length + 1]? = _
    rw [← hlen, List.getElem?_concat_length]
  have hset : dictSetKey ((h ++ [PyObj.vdict (dictEntries h p)])
      ++ [PyObj.vdict (dictEntries h p)]) (h.length + 1) k v
      = heapSet ((h ++ [PyObj.vdict (dictEntries h p)])
          ++ [PyObj.vdict (dictEntries h p)]) (h.length + 1)
          (PyObj.vdict ((k, v) :: (dictEntries h p).filter (fun e => e.1 ≠ k))) := by
    rw [dictSetKey, hretget]
  rw [hset]
  have hagree : ∀ i, i < h.length + 1 →
      heapGet (heapSet ((h ++ [PyObj.vdict (dictEntries h p)])
          ++ [PyObj.vdict (dictEntries h p)]) (h.length + 1)
          (PyObj.vdict ((k, v) :: (dictEntries h p).filter (fun e => e.1 ≠ k)))) i
        = heapGet ((h ++ [PyObj.vdict (dictEntries h p)])
            ++ [PyObj.vdict (dictEntries h p)]) i := by
    intro i hi
    show (List.set _ _ _)[i]? = _
    rw [List.getElem?_set_ne (by omega)]
    rfl
  have hbase : ∀ i, i < h.length + 1 → ∀ o,
      heapGet ((h ++ [PyObj.vdict (dictEntries h p)])
          ++ [PyObj.vdict (dictEntries h p)]) i = some o →
      ∀ a ∈ objRefs o, a < h.length + 1 := by
    intro i hi o ho a haref
    rcases Nat.lt_or_ge i h.length with hlt | hge
    · have hh : heapGet ((h ++ [PyObj.vdict (dictEntries h p)])
          ++ [PyObj.vdict (dictEntries h p)]) i = h[i]? := by
        show (_ ++ _)[i]? = _
        rw [List.getElem?_append_left (by simp; omega),
          List.getElem?_append_left (by omega)]
      rw [hh] at ho
      have hmem : o ∈ h := List.getElem?_mem ho
      have := hwf o hmem a haref
      omega
    · have hieq : i = h.length := by omega
      have hh : heapGet ((h ++ [PyObj.vdict (dictEntries h p)])
          ++ [PyObj.vdict (dictEntries h p)]) i
          = some (PyObj.vdict (dictEntries h p)) := by
        subst hieq
        show (_ ++ _)[h.length]? = _
        rw [List.getElem?_append_left (by simp), List.getElem?_concat_length]
      rw [hh] at ho
      cases ho
      have : a < h.length := by
        cases hge2 : heapGet h p with
        | none => rw [dictEntries, hge2] at haref; simp [objRefs] at haref
        | some o2 =>
          cases o2 with
          | vdict es =>
            have hmem : PyObj.vdict es ∈ h := List.getElem?_mem hge2
            rw [dictEntries, hge2] at haref
            exact hwf _ hmem a haref
          | vstr s => rw [dictEntries, hge2] at haref; simp [objRefs] at haref
          | vbool b => rw [dictEntries, hge2] at haref; simp [objRefs] at haref
          | vlist xs => rw [dictEntries, hge2] at haref; simp [objRefs] at haref
      omega
  apply readDeep_agree _ _ (h.length + 1) hagree
  · intro i hi o ho a haref
    rw [hagree i hi] at ho
    exact hbase i hi o ho a haref
  · omega

/-- C2 witness: the amended theorem applied to the counterexample's heap
with a concrete top-level rebinding. -/
theorem c2_shallow_copy_witness :
    readDeep (dictSetKey
        (cache_get_heap (cache_put_heap [.vstr "p1", .vlist [0],
            .vdict [("key_points", 1)]] [] ("u", "ru", "") 0 2).1 3).1
        (cache_get_heap (cache_put_heap [.vstr "p1", .vlist [0],
            .vdict [("key_points", 1)]] [] ("u", "ru", "") 0 2).1 3).2
        "summary" 0) 5 3
      = readDeep (cache_get_heap (cache_put_heap [.vstr "p1", .vlist [0],
          .vdict [("key_points", 1)]] [] ("u", "ru", "") 0 2).1 3).1 5 3 :=
  (c2_shallow_copy [.vstr "p1", .vlist [0], .vdict [("key_points", 1)]] []
    ("u", "ru", "") 0 2 (by unfold heapWF; decide) (by decide) "summary" 0 5).2.2.2.2

example : pySplitlines "a\nb" = ["a", "b"] := by decide

example : pySplitlines "a\n" = ["a"] := by decide

example : pySplitlines "\na" = ["", "a"] := by decide

example : pySplitlines "" = [] := by decide

example : pySplitlines "a\r\nb\rc" = ["a", "b", "c"] := by decide

example : tsMatch "00:00:00.100 --> 00:00:01.200 align:start position:0%" = true := by decide

example : tsMatch "00:00:00.100 --> 00:00:01.200" = true := by decide

example : tsMatch "0:00:00.100 --> 00:00:01.200" = false := by decide

example : tsMatch "hello" = false := by decide

example : stripTags "Hello<c> world</c>" = "Hello world" := by decide

example : stripTags "a<>b" = "a<>b" := by decide

example : stripTags "a<b" = "a<b" := by decide

example : stripTags "<a<b>c>" = "c>" := by decide

example : stripTags "<<>a>" = "a>" := by decide

example :
    clean_vtt "WEBVTT\nKind: captions\nLanguage: ru\n\n00:00:00.100 --> 00:00:01.200 align:start position:0%\nПривет<00:00:00.500><c> мир</c>\n\n00:00:01.200 --> 00:00:02.200\nПривет мир\n"
      = "Привет мир" := by decide

/-- C6 counterexample: cleaning `"<b>WEBVTT</b>"` strips the tags and
leaves the line `"WEBVTT"`; cleaning again finds a header marker and
removes it, so `_clean_vtt` is not idempotent. -/
theorem c6_counterexample :
    clean_vtt (clean_vtt "<b>WEBVTT</b>") ≠ clean_vtt "<b>WEBVTT</b>" := by decide

/-- C7 counterexample: cleaning `"<c>Kind: captions</c>"` yields the
single output line `"Kind: captions"`, which begins with a format
header marker. -/
theorem c7_counterexample :
    pySplitlines (clean_vtt "<c>Kind: captions</c>") = ["Kind: captions"] ∧
    headerLine "Kind: captions" = true := by decide

lemma dedupAdjacentAux_id (xs : List String) :
    ∀ prev, List.Chain (fun a b => a ≠ b) prev xs → dedupAdjacentAux prev xs = xs := by
  induction xs with
  | nil => intro prev _; rfl
  | cons y ys ih =>
    intro prev hch
    cases hch with
    | cons hpy hys =>
      rw [dedupAdjacentAux, if_pos (Ne.symm hpy), ih y hys]

/-- C8: the concrete scenario cleans to exactly "Hello"; in the dedup
stage a line equal to its immediate predecessor is dropped (inserting an
immediate duplicate changes nothing), while a list with no two adjacent
equal lines — in particular one with only non-adjacent duplicates — is
preserved in full. -/
theorem c8_adjacent_dedup :
    clean_vtt "WEBVTT\n\n00:00:00.000 --> 00:00:01.000\nHello\n\nHello\n" = "Hello" ∧
    (∀ (prev x : String) (xs : List String),
      dedupAdjacentAux prev (x :: x :: xs) = dedupAdjacentAux prev (x :: xs)) ∧
    (∀ xs : List String, xs.Chain' (fun a b => a ≠ b) → (∀ x ∈ xs, x ≠ "") →
      dedupAdjacent xs = xs) := by
  refine ⟨by decide, ?_, ?_⟩
  · intro prev x xs
    by_cases h : x = prev <;> simp [dedupAdjacentAux, h]
  · intro xs hch hne
    cases xs with
    | nil => rfl
    | cons x ys =>
      rw [dedupAdjacent, dedupAdjacentAux, if_pos (hne x (by simp)),
        dedupAdjacentAux_id ys x hch]

/-- C8 witness: non-adjacent duplicates are preserved on a concrete
list. -/
theorem c8_adjacent_dedup_witness :
    dedupAdjacent ["a", "b", "a"] = ["a", "b", "a"] :=
  c8_adjacent_dedup.2.2 ["a", "b", "a"]
    (List.Chain.cons (by decide) (List.Chain.cons (by decide) List.Chain.nil))
    (by decide)

lemma fbStep_error (cond : Bool) (cmd : List String) (st : OrchState) (m : String) :
    fbStep cond cmd st (.error m) = st := by
  unfold fbStep
  by_cases h : (pyFalsyStr st.raw && cond) = true <;> simp [h]

lemma fbStep_ok_attempted (cond : Bool) (cmd : List String) (st : OrchState)
    (r : ExtractOk) (h : (pyFalsyStr st.raw && cond) = true) :
    fbStep cond cmd st (.ok r) = ⟨r.raw_subs, st.stderr ++ "\n" ++ r.stderr, cmd⟩ := by
  simp [fbStep, h]

lemma fbStep_skip (cond : Bool) (cmd : List String) (st : OrchState)
    (o : ExtractResult) (h : (pyFalsyStr st.raw && cond) = false) :
    fbStep cond cmd st o = st := by
  simp [fbStep, h]

lemma fbStep_congr (cond : Bool) (cmd : List String) (st st2 : OrchState)
    (o : ExtractResult) (h : rawEquiv st st2) :
    rawEquiv (fbStep cond cmd st o) (fbStep cond cmd st2 o) := by
  have hfal : pyFalsyStr st.raw = pyFalsyStr st2.raw := by
    rcases h with he | ⟨h1, h2⟩
    · rw [he]
    · rw [h1, h2]
  by_cases hc : (pyFalsyStr st.raw && cond) = true
  · have hc2 : (pyFalsyStr st2.raw && cond) = true := by rw [← hfal]; exact hc
    cases o with
    | error m => rw [fbStep_error, fbStep_error]; exact h
    | ok r =>
      rw [fbStep_ok_attempted _ _ _ _ hc, fbStep_ok_attempted _ _ _ _ hc2]
      left; rfl
  · have hcf : (pyFalsyStr st.raw && cond) = false := by
      revert hc; cases (pyFalsyStr st.raw && cond) <;> simp
    have hc2 : (pyFalsyStr st2.raw && cond) = false := by rw [← hfal]; exact hcf
    rw [fbStep_skip _ _ _ _ hcf, fbStep_skip _ _ _ _ hc2]
    exact h

lemma fbStep_error_vs_none (cond : Bool) (cmd : List String) (st : OrchState)
    (m s : String) :
    rawEquiv (fbStep cond cmd st (.error m)) (fbStep cond cmd st (.ok ⟨none, s⟩)) := by
  by_cases hc : (pyFalsyStr st.raw && cond) = true
  · rw [fbStep_error, fbStep_ok_attempted _ _ _ _ hc]
    right
    exact ⟨(Bool.and_eq_true _ _|>.mp hc).1, rfl⟩
  · have hcf : (pyFalsyStr st.raw && cond) = false := by
      revert hc; cases (pyFalsyStr st.raw && cond) <;> simp
    rw [fbStep_skip _ _ _ _ hcf, fbStep_skip _ _ _ _ hcf]
    left; rfl

lemma orchFinish_outCore (cfg : RuntimeConfig) (c : Cache) (now : ℚ)
    (url langs : String) (up : Option String) (llm : String → String × List String)
    (st st2 : OrchState) (h : rawEquiv st st2) :
    outCore (orchFinish cfg c now url langs up llm st).1.out
      = outCore (orchFinish cfg c now url langs up llm st2).1.out := by
  rcases h with he | ⟨h1, h2⟩
  · by_cases hf : pyFalsyStr st.raw = true
    · have hf2 : pyFalsyStr st2.raw = true := by rw [← he]; exact hf
      simp [orchFinish, hf, hf2, outCore]
    · have hf2 : ¬ pyFalsyStr st2.raw = true := by rw [← he]; exact hf
      simp [orchFinish, hf, hf2, outCore, he]
  · simp [orchFinish, h1, h2, outCore]

/-- C3: a raised failure on the very first extraction attempt produces
a structured error-status result; a raised failure at any fallback state
is caught and the run continues exactly as if that state had produced no
text (same status, summary, key points and transcript, for every later
oracle behaviour); and every run returns one of the four structured
statuses — no extraction exception escapes. -/
theorem c3_fallback_exceptions_caught (cfg : RuntimeConfig) (c : Cache) (now : ℚ)
    (url langs : String) (up : Option String) (msg m s : String)
    (o1 o2 o3 o4 : ExtractResult) (r1 : ExtractOk)
    (llm : String → String × List String) :
    ((analyze_extraction cfg c now url langs up (.error msg) o2 o3 o4 llm).1.out.status
        = "blocked_by_youtube" ∨
     (analyze_extraction cfg c now url langs up (.error msg) o2 o3 o4 llm).1.out.status
        = "extract_error") ∧
    outCore (analyze_extraction cfg c now url langs up (.ok r1) (.error m) o3 o4 llm).1.out
      = outCore (analyze_extraction cfg c now url langs up (.ok r1)
          (.ok ⟨none, s⟩) o3 o4 llm).1.out ∧
    outCore (analyze_extraction cfg c now url langs up (.ok r1) o2 (.error m) o4 llm).1.out
      = outCore (analyze_extraction cfg c now url langs up (.ok r1) o2
          (.ok ⟨none, s⟩) o4 llm).1.out ∧
    outCore (analyze_extraction cfg c now url langs up (.ok r1) o2 o3 (.error m) llm).1.out
      = outCore (analyze_extraction cfg c now url langs up (.ok r1) o2 o3
          (.ok ⟨none, s⟩) llm).1.out ∧
    (analyze_extraction cfg c now url langs up o1 o2 o3 o4 llm).1.out.status ∈
      (["ok", "no_subtitles", "extract_error", "blocked_by_youtube"] : List String) := by
  refine ⟨?_, ?_, ?_, ?_, ?_⟩
  · by_cases hb : (pyInStr botPhraseCurly msg || pyInStr botPhraseAscii msg) = true
    · left; simp [analyze_extraction, classify_extract_status, hb]
    · right; simp [analyze_extraction, classify_extract_status, hb]
  · exact orchFinish_outCore cfg c now url langs up llm _ _
      (fbStep_congr _ _ _ _ _ (fbStep_congr _ _ _ _ _ (fbStep_error_vs_none _ _ _ m s)))
  · exact orchFinish_outCore cfg c now url langs up llm _ _
      (fbStep_congr _ _ _ _ _ (fbStep_error_vs_none _ _ _ m s))
  · exact orchFinish_outCore cfg c now url langs up llm _ _
      (fbStep_error_vs_none _ _ _ m s)
  · cases o1 with
    | error msg2 =>
      by_cases hb : (pyInStr botPhraseCurly msg2 || pyInStr botPhraseAscii msg2) = true <;>
        simp [analyze_extraction, classify_extract_status, hb]
    | ok r =>
      by_cases hf : pyFalsyStr (orchChain cfg url
          (normalize_langs cfg.env.sub_langs_default (some langs))
          (fallback_langs cfg.sub_langs_fallback)
          ⟨r.raw_subs, r.stderr, build_subtitles_cmd cfg.env url
            (normalize_langs cfg.env.sub_langs_default (some langs)) cfg.cookies_path none⟩
          o2 o3 o4).raw = true <;>
        simp [analyze_extraction, orchFinish, hf]

/-- C4: when the first extraction attempt raises, the result status is
`blocked_by_youtube` exactly when the message contains one of the two
bot-detection phrase variants and `extract_error` otherwise, the
transcript and key points are empty, and with a positive TTL the result
is stored in the cache under the request identity. -/
theorem c4_first_attempt_error (cfg : RuntimeConfig) (c : Cache) (now : ℚ)
    (url langs : String) (up : Option String) (msg : String)
    (o2 o3 o4 : ExtractResult) (llm : String → String × List String) :
    ((pyInStr botPhraseCurly msg || pyInStr botPhraseAscii msg) = true →
      (analyze_extraction cfg c now url langs up (.error msg) o2 o3 o4 llm).1.out.status
        = "blocked_by_youtube") ∧
    ((pyInStr botPhraseCurly msg || pyInStr botPhraseAscii msg) = false →
      (analyze_extraction cfg c now url langs up (.error msg) o2 o3 o4 llm).1.out.status
        = "extract_error") ∧
    (analyze_extraction cfg c now url langs up (.error msg) o2 o3 o4 llm).1.out.transcript
      = "" ∧
    (analyze_extraction cfg c now url langs up (.error msg) o2 o3 o4 llm).1.out.key_points
      = [] ∧
    (0 < cfg.ttl →
      cacheLookup (analyze_extraction cfg c now url langs up (.error msg) o2 o3 o4 llm).2
          (cacheKey cfg.env.sub_langs_default url langs up)
        = some (now,
            (analyze_extraction cfg c now url langs up (.error msg) o2 o3 o4 llm).1.out)) := by
  refine ⟨?_, ?_, rfl, rfl, ?_⟩
  · intro hb
    simp [analyze_extraction, classify_extract_status, hb]
  · intro hb
    simp [analyze_extraction, classify_extract_status, hb]
  · intro httl
    have hn : ¬ cfg.ttl ≤ 0 := by omega
    show cacheLookup (cache_put cfg.ttl cfg.env.sub_langs_default c now url langs _ up) _ = _
    unfold cache_put
    rw [if_neg hn]
    exact cacheLookup_insert _ _ _

/-- C4 witness: a first-attempt failure whose message is the ASCII
variant of the bot-detection phrase is classified `blocked_by_youtube`. -/
theorem c4_first_attempt_error_witness :
    (analyze_extraction ⟨⟨"ru", true, false, ""⟩, "en", true, true, none, 900, false⟩
        [] 0 "u" "ru" none (.error botPhraseAscii) (.ok ⟨none, ""⟩) (.ok ⟨none, ""⟩)
        (.ok ⟨none, ""⟩) (fun _ => ("", []))).1.out.status = "blocked_by_youtube" :=
  (c4_first_attempt_error ⟨⟨"ru", true, false, ""⟩, "en", true, true, none, 900, false⟩
    [] 0 "u" "ru" none botPhraseAscii (.ok ⟨none, ""⟩) (.ok ⟨none, ""⟩)
    (.ok ⟨none, ""⟩) (fun _ => ("", []))).1 (by decide)

/-- C5 counterexample: state 1 produces no text with stderr "e1"; state
2 is attempted and raises with diagnostic "boom"; states 3 and 4 are
disabled. The code reports stderr "e1" — the raising state's diagnostic
is not concatenated — and reports the command of attempt 1, although the
last attempt made was attempt 2, whose command differs. -/
theorem c5_counterexample :
    (analyze_extraction ⟨⟨"ru", true, false, ""⟩, "en", true, false, none, 0, false⟩
        [] 0 "u" "ru" none (.ok ⟨none, "e1"⟩) (.error "boom") (.ok ⟨none, "x3"⟩)
        (.ok ⟨none, "x4"⟩) (fun _ => ("", []))).1.stderr_acc = some "e1" ∧
    (analyze_extraction ⟨⟨"ru", true, false, ""⟩, "en", true, false, none, 0, false⟩
        [] 0 "u" "ru" none (.ok ⟨none, "e1"⟩) (.error "boom") (.ok ⟨none, "x3"⟩)
        (.ok ⟨none, "x4"⟩) (fun _ => ("", []))).1.used_cmd
      = some (build_subtitles_cmd ⟨"ru", true, false, ""⟩ "u" "ru" none none) ∧
    build_subtitles_cmd ⟨"ru", true, false, ""⟩ "u" "ru" none none
      ≠ build_subtitles_cmd ⟨"ru", true, false, ""⟩ "u" "ru" none (some true) ∧
    pyInStr "boom" "e1" = false := by
  refine ⟨by decide, by decide, by decide, by decide⟩

/-- C5 (amended): a fallback state that raises contributes nothing — the
diagnostics, the reported command and the subtitle text are all left
unchanged; a fallback state that runs without raising has its stderr
newline-appended to the debug report and its command becomes the
reported one; a state whose guard is off (or that is skipped because
text was already produced) changes nothing; hence the report holds the
newline-joined diagnostics of exactly the non-raising attempted states,
and the reported command is that of the last non-raising attempt — which
is the producing attempt when one produced text, and in particular, when
every fallback attempt raises, the report is exactly the first attempt's
stderr and command. -/
theorem c5_debug_report (cond : Bool) (cmd : List String) (st : OrchState)
    (m : String) (r : ExtractOk) (o : ExtractResult)
    (cfg : RuntimeConfig) (c : Cache) (now : ℚ) (url langs : String)
    (up : Option String) (r1 : ExtractOk) (m2 m3 m4 : String)
    (llm : String → String × List String) :
    fbStep cond cmd st (.error m) = st ∧
    ((pyFalsyStr st.raw && cond) = true →
      fbStep cond cmd st (.ok r) = ⟨r.raw_subs, st.stderr ++ "\n" ++ r.stderr, cmd⟩) ∧
    ((pyFalsyStr st.raw && cond) = false → fbStep cond cmd st o = st) ∧
    ((analyze_extraction cfg c now url langs up (.ok r1) (.error m2) (.error m3)
        (.error m4) llm).1.stderr_acc = some r1.stderr ∧
     (analyze_extraction cfg c now url langs up (.ok r1) (.error m2) (.error m3)
        (.error m4) llm).1.used_cmd
       = some (build_subtitles_cmd cfg.env url
           (normalize_langs cfg.env.sub_langs_default (some langs))
           cfg.cookies_path none)) := by
  refine ⟨fbStep_error cond cmd st m, fbStep_ok_attempted cond cmd st r,
    fbStep_skip cond cmd st o, ?_⟩
  have hchain : orchChain cfg url (normalize_langs cfg.env.sub_langs_default (some langs))
      (fallback_langs cfg.sub_langs_fallback)
      ⟨r1.raw_subs, r1.stderr, build_subtitles_cmd cfg.env url
        (normalize_langs cfg.env.sub_langs_default (some langs)) cfg.cookies_path none⟩
      (.error m2) (.error m3) (.error m4)
      = ⟨r1.raw_subs, r1.stderr, build_subtitles_cmd cfg.env url
          (normalize_langs cfg.env.sub_langs_default (some langs)) cfg.cookies_path none⟩ := by
    unfold orchChain
    rw [fbStep_error, fbStep_error, fbStep_error]
  show ((orchFinish cfg c now url langs up llm _).1.stderr_acc = _ ∧
    (orchFinish cfg c now url langs up llm _).1.used_cmd = _)
  rw [hchain]
  by_cases hf : pyFalsyStr r1.raw_subs = true <;>
    simp [orchFinish, hf]

/-- C5 witness: a non-raising attempted fallback state appends its
stderr to the report and takes over the reported command. -/
theorem c5_debug_report_witness :
    fbStep true ["c2"] ⟨none, "e1", ["c1"]⟩ (.ok ⟨some "text", "e2"⟩)
      = ⟨some "text", "e1" ++ "\n" ++ "e2", ["c2"]⟩ :=
  (c5_debug_report true ["c2"] ⟨none, "e1", ["c1"]⟩ "m" ⟨some "text", "e2"⟩
    (.ok ⟨some "text", "e2"⟩)
    ⟨⟨"ru", true, false, ""⟩, "en", true, false, none, 0, false⟩ [] 0 "u" "ru" none
    ⟨none, "e1"⟩ "m2" "m3" "m4" (fun _ => ("", []))).2.1 (by decide)

lemma splitLinesAux_chars (P : Char → Prop) :
    ∀ (cs acc : List Char),
    (∀ c ∈ cs, c ≠ '\n' → c ≠ '\r' → P c) →
    (∀ c ∈ acc, P c) →
    ∀ l ∈ splitLinesAux cs acc, ∀ c ∈ l.toList, P c := by
  intro cs acc
  induction cs, acc using splitLinesAux.induct with
  | case1 acc hemp =>
    intro _ _ l hl
    rw [splitLinesAux, if_pos hemp] at hl
    simp at hl
  | case2 acc hemp =>
    intro _ hacc l hl
    rw [splitLinesAux, if_neg hemp] at hl
    simp at hl
    subst hl
    intro c hc
    exact hacc c (by simpa using hc)
  | case3 rest acc ih =>
    intro hcs hacc l hl
    rw [splitLinesAux.eq_2] at hl
    rcases List.mem_cons.mp hl with h1 | h2
    · subst h1; intro c hc; exact hacc c (by simpa using hc)
    · exact ih (fun c hc h1 h2 => hcs c (by simp [hc]) h1 h2) (by simp) l h2
  | case4 rest acc hne ih =>
    intro hcs hacc l hl
    rw [splitLinesAux.eq_3 _ _ hne] at hl
    rcases List.mem_cons.mp hl with h1 | h2
    · subst h1; intro c hc; exact hacc c (by simpa using hc)
    · exact ih (fun c hc h1 h2 => hcs c (by simp [hc]) h1 h2) (by simp) l h2
  | case5 rest acc ih =>
    intro hcs hacc l hl
    rw [splitLinesAux.eq_4] at hl
    rcases List.mem_cons.mp hl with h1 | h2
    · subst h1; intro c hc; exact hacc c (by simpa using hc)
    · exact ih (fun c hc h1 h2 => hcs c (by simp [hc]) h1 h2) (by simp) l h2
  | case6 c2 rest acc hno1 hno2 hno3 ih =>
    intro hcs hacc l hl
    rw [splitLinesAux.eq_5 _ _ _ hno1 hno2 hno3] at hl
    refine ih (fun d hd h1 h2 => hcs d (by simp [hd]) h1 h2) ?_ l hl
    intro d hd
    rcases List.mem_cons.mp hd with h1 | h2
    · subst h1
      exact hcs d (by simp) (fun hh => hno3 hh) (fun hh => hno2 hh)
    · exact hacc d h2

lemma pySplitlines_chars (s : String) :
    ∀ l ∈ pySplitlines s, ∀ c ∈ l.toList, c ∈ s.toList ∧ c ≠ '\n' ∧ c ≠ '\r' := by
  intro l hl c hc
  exact splitLinesAux_chars (fun c => c ∈ s.toList ∧ c ≠ '\n' ∧ c ≠ '\r') s.toList []
    (fun c hcm h1 h2 => ⟨hcm, h1, h2⟩) (by simp) l hl c hc

lemma splitLinesAux_append (cs : List Char) (h : ∀ c ∈ cs, c ≠ '\n' ∧ c ≠ '\r') :
    ∀ (tail acc : List Char),
      splitLinesAux (cs ++ tail) acc = splitLinesAux tail (cs.reverse ++ acc) := by
  induction cs with
  | nil => intro tail acc; simp
  | cons c cs2 ih =>
    intro tail acc
    have hc := h c (by simp)
    rw [List.cons_append,
      splitLinesAux.eq_5 acc c (cs2 ++ tail)
        (fun _ hcr _ => hc.2 hcr) (fun hcr => hc.2 hcr) (fun hcr => hc.1 hcr),
      ih (fun d hd => h d (by simp [hd])) tail (c :: acc)]
    simp

lemma pySplitlines_joinNl (L : List String)
    (h : ∀ l ∈ L, l ≠ "" ∧ ∀ c ∈ l.toList, c ≠ '\n' ∧ c ≠ '\r') :
    pySplitlines (joinNl L) = L := by
  induction L with
  | nil => rfl
  | cons x rest ih =>
    rcases rest with _ | ⟨y, rest2⟩
    · have hx := h x (by simp)
      have hxl : x.toList ≠ [] := fun hnil => hx.1 (String.ext hnil)
      show splitLinesAux (joinNl [x]).toList [] = [x]
      have hj : joinNl [x] = x := rfl
      rw [hj, ← List.append_nil x.toList,
        splitLinesAux_append x.toList (fun c hc => hx.2 c hc) [] [],
        splitLinesAux]
      rw [if_neg (by
        simp only [List.append_nil, List.isEmpty_iff, List.reverse_eq_nil_iff]
        exact fun hh => hxl hh)]
      have hmk : String.mk ((x.toList.reverse ++ []).reverse) = x :=
        String.ext (by simp)
      rw [hmk]
    · have hx := h x (by simp)
      have hj : joinNl (x :: y :: rest2) = x ++ "\n" ++ joinNl (y :: rest2) := rfl
      show splitLinesAux (joinNl (x :: y :: rest2)).toList [] = _
      have hdata : (x ++ "\n" ++ joinNl (y :: rest2)).toList
          = x.toList ++ ('\n' :: (joinNl (y :: rest2)).toList) := by
        show (x ++ "\n" ++ joinNl (y :: rest2)).data = _
        simp [String.data_append]
      rw [hj, hdata,
        splitLinesAux_append x.toList (fun c hc => hx.2 c hc),
        splitLinesAux.eq_4]
      have hmk : String.mk ((x.toList.reverse ++ []).reverse) = x := by
        apply String.ext
        simp
      rw [hmk]
      have ih2 := ih (fun l hl => h l (by simp [hl]))
      rw [show splitLinesAux (joinNl (y :: rest2)).toList [] = pySplitlines (joinNl (y :: rest2)) from rfl, ih2]

lemma stripChars_eq_rdrop (cs : List Char) :
    stripChars cs = (cs.dropWhile pyIsSpace).rdropWhile pyIsSpace := rfl

lemma mem_stripChars (c : Char) (cs : List Char) (hc : c ∈ stripChars cs) : c ∈ cs := by
  unfold stripChars at hc
  simp only [List.mem_reverse] at hc
  have h1 : c ∈ (cs.dropWhile pyIsSpace).reverse :=
    (List.dropWhile_suffix pyIsSpace).sublist.subset hc
  simp only [List.mem_reverse] at h1
  exact (List.dropWhile_suffix pyIsSpace).sublist.subset h1

lemma pyStrip_mem (c : Char) (s : String) (hc : c ∈ (pyStrip s).toList) : c ∈ s.toList :=
  mem_stripChars c s.toList hc

lemma dropWhile_eq_self_of_head (p : Char → Bool) (cs : List Char)
    (h : ∀ c, cs.head? = some c → p c = false) : cs.dropWhile p = cs := by
  cases cs with
  | nil => rfl
  | cons c cs2 =>
    rw [List.dropWhile_cons, if_neg]
    simp [h c rfl]

lemma rdropWhile_eq_self_of_last (p : Char → Bool) (cs : List Char)
    (h : ∀ c, cs.getLast? = some c → p c = false) : cs.rdropWhile p = cs := by
  rw [List.rdropWhile_eq_self_iff]
  intro hl
  have := h (cs.getLast hl) (List.getLast?_eq_getLast cs hl)
  simp [this]

lemma stripChars_eq_self (cs : List Char)
    (h1 : ∀ c, cs.head? = some c → pyIsSpace c = false)
    (h2 : ∀ c, cs.getLast? = some c → pyIsSpace c = false) : stripChars cs = cs := by
  rw [stripChars_eq_rdrop, dropWhile_eq_self_of_head _ _ h1]
  exact rdropWhile_eq_self_of_last _ _ h2

lemma edges_of_stripChars_eq_self (cs : List Char) (h : stripChars cs = cs) :
    (∀ c, cs.head? = some c → pyIsSpace c = false) ∧
    (∀ c, cs.getLast? = some c → pyIsSpace c = false) := by
  rw [stripChars_eq_rdrop] at h
  have hdw : cs.dropWhile pyIsSpace = cs := by
    have hle1 : ((cs.dropWhile pyIsSpace).rdropWhile pyIsSpace).length
        ≤ (cs.dropWhile pyIsSpace).length :=
      (List.rdropWhile_prefix pyIsSpace (cs.dropWhile pyIsSpace)).length_le
    have hle2 : (cs.dropWhile pyIsSpace).length ≤ cs.length :=
      (List.dropWhile_suffix pyIsSpace).length_le
    have hlen := congrArg List.length h
    exact (List.dropWhile_suffix pyIsSpace).eq_of_length (by omega)
  have hrd : cs.rdropWhile pyIsSpace = cs := by rw [hdw] at h; exact h
  constructor
  · intro c hc
    cases cs with
    | nil => cases hc
    | cons a l =>
      obtain rfl : a = c := by simpa using hc
      rw [List.dropWhile_cons] at hdw
      by_cases hp : pyIsSpace a = true
      · rw [if_pos hp] at hdw
        have hle : (List.dropWhile pyIsSpace l).length ≤ l.length :=
          (List.dropWhile_suffix pyIsSpace).length_le
        have h2 := congrArg List.length hdw
        simp at h2
        omega
      · simpa using hp
  · intro c hc
    have hne : cs ≠ [] := by intro hh; rw [hh] at hc; cases hc
    have h3 := List.rdropWhile_eq_self_iff.mp hrd hne
    have h4 : cs.getLast hne = c := by
      have h5 := List.getLast?_eq_getLast cs hne
      rw [hc] at h5
      exact (Option.some.inj h5).symm
    rw [← h4]
    simpa using h3

lemma head?_dropWhile (p : Char → Bool) (cs : List Char) (c : Char)
    (hc : (cs.dropWhile p).head? = some c) : p c = false := by
  induction cs with
  | nil => cases hc
  | cons a l ih =>
    rw [List.dropWhile_cons] at hc
    by_cases hp : p a = true
    · rw [if_pos hp] at hc; exact ih hc
    · rw [if_neg hp] at hc
      obtain rfl : a = c := by simpa using hc
      simpa using hp

lemma stripChars_edges (cs : List Char) (c : Char) :
    ((stripChars cs).head? = some c → pyIsSpace c = false) ∧
    ((stripChars cs).getLast? = some c → pyIsSpace c = false) := by
  constructor
  · rw [stripChars_eq_rdrop]
    intro hc
    obtain ⟨t, ht⟩ := List.rdropWhile_prefix pyIsSpace (cs.dropWhile pyIsSpace)
    have hA : (cs.dropWhile pyIsSpace).head? = some c := by
      rw [← ht, List.head?_append, hc]
      rfl
    exact head?_dropWhile pyIsSpace cs c hA
  · rw [stripChars_eq_rdrop]
    intro hc
    have hne : (cs.dropWhile pyIsSpace).rdropWhile pyIsSpace ≠ [] := by
      intro hh; rw [hh] at hc; cases hc
    have h3 := List.rdropWhile_last_not pyIsSpace _ hne
    have h4 : ((cs.dropWhile pyIsSpace).rdropWhile pyIsSpace).getLast hne = c := by
      have h5 := List.getLast?_eq_getLast _ hne
      rw [hc] at h5
      exact (Option.some.inj h5).symm
    rw [h4] at h3
    simpa using h3

lemma stripChars_idem (cs : List Char) : stripChars (stripChars cs) = stripChars cs :=
  stripChars_eq_self _ (fun c => (stripChars_edges cs c).1)
    (fun c => (stripChars_edges cs c).2)

lemma pyStrip_idem (s : String) : pyStrip (pyStrip s) = pyStrip s :=
  String.ext (stripChars_idem s.toList)

lemma stripTagsGo_no_lt (cs : List Char) (h : '<' ∉ cs) : stripTagsGo none cs = cs := by
  induction cs with
  | nil => rfl
  | cons c rest ih =>
    have hc : ¬ c = '<' := by intro hh; exact h (by simp [hh])
    rw [stripTagsGo, if_neg hc, ih (fun hm => h (by simp [hm]))]

lemma hasTag_no_lt (cs : List Char) (h : '<' ∉ cs) : hasTagChars cs = false := by
  induction cs with
  | nil => rfl
  | cons c rest ih =>
    have hc : ¬ c = '<' := by intro hh; exact h (by simp [hh])
    simp [hasTagChars, hc, ih (fun hm => h (by simp [hm]))]

lemma stripTags_no_lt (s : String) (h : '<' ∉ s.toList) : stripTags s = s :=
  String.ext (stripTagsGo_no_lt s.toList h)

lemma cleanedOf_fixed (L : List String)
    (h : ∀ l ∈ L, pyStrip l = l ∧ l ≠ "" ∧ headerLine l = false ∧
      tsMatch l = false ∧ stripTags l = l) :
    cleanedOf L = L := by
  induction L with
  | nil => rfl
  | cons x rest ih =>
    obtain ⟨h1, h2, h3, h4, h5⟩ := h x (by simp)
    rw [cleanedOf]
    simp only [h1, h3, h4, h5]
    simp [h2, ih (fun l hl => h l (by simp [hl]))]

lemma cleanedOf_mem (L : List String)
    (hL : ∀ l ∈ L, '<' ∉ l.toList ∧ ∀ c ∈ l.toList, c ≠ '\n' ∧ c ≠ '\r') :
    ∀ m ∈ cleanedOf L,
      pyStrip m = m ∧ m ≠ "" ∧ headerLine m = false ∧ tsMatch m = false ∧
      '<' ∉ m.toList ∧ (∀ c ∈ m.toList, c ≠ '\n' ∧ c ≠ '\r') := by
  induction L with
  | nil => intro m hm; cases hm
  | cons x rest ih =>
    intro m hm
    obtain ⟨hx1, hx2⟩ := hL x (by simp)
    have hrest : ∀ l ∈ rest, '<' ∉ l.toList ∧ ∀ c ∈ l.toList, c ≠ '\n' ∧ c ≠ '\r' :=
      fun l hl => hL l (by simp [hl])
    have hlt : '<' ∉ (pyStrip x).toList := fun hmem => hx1 (pyStrip_mem _ _ hmem)
    have hnl : ∀ c ∈ (pyStrip x).toList, c ≠ '\n' ∧ c ≠ '\r' :=
      fun c hc => hx2 c (pyStrip_mem _ _ hc)
    have hstrip : stripTags (pyStrip x) = pyStrip x := stripTags_no_lt _ hlt
    by_cases he : pyStrip x = ""
    · have hm2 : m ∈ cleanedOf rest := by
        rw [cleanedOf] at hm
        simpa [he] using hm
      exact ih hrest m hm2
    · by_cases hh : headerLine (pyStrip x) = true
      · have hm2 : m ∈ cleanedOf rest := by
          rw [cleanedOf] at hm
          simpa [he, hh] using hm
        exact ih hrest m hm2
      · by_cases ht : tsMatch (pyStrip x) = true
        · have hm2 : m ∈ cleanedOf rest := by
            rw [cleanedOf] at hm
            simpa [he, hh, ht] using hm
          exact ih hrest m hm2
        · have hm2 : m = pyStrip x ∨ m ∈ cleanedOf rest := by
            rw [cleanedOf] at hm
            simpa [he, hh, ht, hstrip] using hm
          rcases hm2 with h1 | h2
          · subst h1
            exact ⟨pyStrip_idem x, he, by simpa using hh, by simpa using ht, hlt, hnl⟩
          · exact ih hrest m h2

lemma dedupAdjacentAux_subset (prev : String) (L : List String) :
    ∀ m ∈ dedupAdjacentAux prev L, m ∈ L := by
  induction L generalizing prev with
  | nil => intro m hm; cases hm
  | cons x rest ih =>
    intro m hm
    rw [dedupAdjacentAux] at hm
    by_cases hx : x ≠ prev
    · rw [if_pos hx] at hm
      rcases List.mem_cons.mp hm with h1 | h2
      · simp [h1]
      · simp [ih x m h2]
    · rw [if_neg hx] at hm
      simp [ih x m hm]

lemma dedupAdjacentAux_chain (L : List String) :
    ∀ prev, List.Chain (fun a b => a ≠ b) prev (dedupAdjacentAux prev L) := by
  induction L with
  | nil => intro prev; exact List.Chain.nil
  | cons x rest ih =>
    intro prev
    rw [dedupAdjacentAux]
    by_cases hx : x ≠ prev
    · rw [if_pos hx]
      exact List.Chain.cons (Ne.symm hx) (ih x)
    · rw [if_neg hx]
      have hxe : x = prev := by simpa using hx
      subst hxe
      exact ih x

lemma joinNl_head? (x : String) (rest : List String) (hx : x ≠ "") :
    (joinNl (x :: rest)).toList.head? = x.toList.head? := by
  cases rest with
  | nil => rfl
  | cons y rest2 =>
    have hxl : x.toList ≠ [] := fun hnil => hx (String.ext hnil)
    rcases hd : x.toList with _ | ⟨c, cs⟩
    · exact absurd hd hxl
    · show (x ++ "\n" ++ joinNl (y :: rest2)).data.head? = _
      rw [String.data_append, String.data_append]
      have hd2 : x.data = c :: cs := hd
      simp [hd2]

lemma joinNl_getLast? (L : List String) (h : ∀ l ∈ L, l ≠ "") :
    ∀ x, L.getLast? = some x →
      (joinNl L).toList.getLast? = x.toList.getLast? := by
  induction L with
  | nil => intro x hx; cases hx
  | cons a rest ih =>
    intro x hx
    cases rest with
    | nil =>
      obtain rfl : a = x := by simpa using hx
      rfl
    | cons b rest2 =>
      have hx2 : (b :: rest2).getLast? = some x := by simpa using hx
      have ihr := ih (fun l hl => h l (by simp [hl])) x hx2
      have hxne : x ≠ "" := h x (by
        have := List.mem_of_getLast?_eq_some hx2
        simp [this])
      have hxl : x.toList ≠ [] := fun hnil => hxne (String.ext hnil)
      show (a ++ "\n" ++ joinNl (b :: rest2)).data.getLast? = _
      rw [String.data_append, String.data_append, List.getLast?_append]
      rw [show (joinNl (b :: rest2)).data = (joinNl (b :: rest2)).toList from rfl, ihr]
      have : ∃ c, x.toList.getLast? = some c := by
        refine ⟨x.toList.getLast hxl, List.getLast?_eq_getLast _ hxl⟩
      obtain ⟨c, hc⟩ := this
      rw [hc]
      rfl

lemma clean_vtt_no_lt (s : String) (h : '<' ∉ s.toList) :
    clean_vtt s = joinNl (dedupAdjacent (cleanedOf (pySplitlines s))) ∧
    pySplitlines (clean_vtt s) = dedupAdjacent (cleanedOf (pySplitlines s)) ∧
    (∀ m ∈ dedupAdjacent (cleanedOf (pySplitlines s)),
      pyStrip m = m ∧ m ≠ "" ∧ headerLine m = false ∧ tsMatch m = false ∧
      '<' ∉ m.toList ∧ (∀ c ∈ m.toList, c ≠ '\n' ∧ c ≠ '\r')) ∧
    pyStrip (joinNl (dedupAdjacent (cleanedOf (pySplitlines s))))
      = joinNl (dedupAdjacent (cleanedOf (pySplitlines s))) := by
  have hlines : ∀ l ∈ pySplitlines s, '<' ∉ l.toList ∧
      ∀ c ∈ l.toList, c ≠ '\n' ∧ c ≠ '\r' := by
    intro l hl
    constructor
    · intro hmem
      exact h (pySplitlines_chars s l hl '<' hmem).1
    · intro c hc
      have hp := pySplitlines_chars s l hl c hc
      exact ⟨hp.2.1, hp.2.2⟩
  have hM := cleanedOf_mem _ hlines
  have hLprops : ∀ m ∈ dedupAdjacent (cleanedOf (pySplitlines s)),
      pyStrip m = m ∧ m ≠ "" ∧ headerLine m = false ∧ tsMatch m = false ∧
      '<' ∉ m.toList ∧ (∀ c ∈ m.toList, c ≠ '\n' ∧ c ≠ '\r') :=
    fun m hm => hM m (dedupAdjacentAux_subset "" _ m hm)
  have hfix : pyStrip (joinNl (dedupAdjacent (cleanedOf (pySplitlines s))))
      = joinNl (dedupAdjacent (cleanedOf (pySplitlines s))) := by
    rcases hL : dedupAdjacent (cleanedOf (pySplitlines s)) with _ | ⟨x, rest⟩
    · rfl
    · have hxprops := hLprops x (by rw [hL]; simp)
      apply String.ext
      show stripChars (joinNl (x :: rest)).toList = (joinNl (x :: rest)).toList
      apply stripChars_eq_self
      · intro c hc
        rw [joinNl_head? x rest hxprops.2.1] at hc
        exact (edges_of_stripChars_eq_self x.toList
          (congrArg String.toList hxprops.1)).1 c hc
      · intro c hc
        have hne : x :: rest ≠ ([] : List String) := by simp
        have hlast := List.getLast?_eq_getLast (x :: rest) hne
        have hy : (x :: rest).getLast hne ∈ x :: rest := List.getLast_mem hne
        have hyprops := hLprops ((x :: rest).getLast hne) (by rw [hL]; exact hy)
        rw [joinNl_getLast? (x :: rest)
          (fun l hl => (hLprops l (by rw [hL]; exact hl)).2.1) _ hlast] at hc
        exact (edges_of_stripChars_eq_self _
          (congrArg String.toList hyprops.1)).2 c hc
  have h1 : clean_vtt s = joinNl (dedupAdjacent (cleanedOf (pySplitlines s))) := hfix
  refine ⟨h1, ?_, hLprops, hfix⟩
  rw [h1]
  exact pySplitlines_joinNl _ (fun l hl =>
    ⟨(hLprops l hl).2.1, (hLprops l hl).2.2.2.2.2⟩)

/-- C6 (amended): `_clean_vtt` is idempotent on every input that
contains no `<` character (tag stripping is then the identity, so a
second cleaning pass sees only stripped, nonempty, non-header,
non-timing lines with no adjacent duplicates and leaves them
untouched); with tags present a stripped line can expose a header
marker or timing line that only the second pass removes (see the
counterexample). -/
theorem c6_clean_idempotent_no_tags (s : String) (h : '<' ∉ s.toList) :
    clean_vtt (clean_vtt s) = clean_vtt s := by
  obtain ⟨h1, h2, h3, h4⟩ := clean_vtt_no_lt s h
  show pyStrip (joinNl (dedupAdjacent (cleanedOf (pySplitlines (clean_vtt s)))))
    = clean_vtt s
  rw [h2, cleanedOf_fixed _ (fun l hl =>
    ⟨(h3 l hl).1, (h3 l hl).2.1, (h3 l hl).2.2.1, (h3 l hl).2.2.2.1,
     stripTags_no_lt l (h3 l hl).2.2.2.2.1⟩)]
  rw [show dedupAdjacent (dedupAdjacent (cleanedOf (pySplitlines s)))
      = dedupAdjacent (cleanedOf (pySplitlines s)) from
    dedupAdjacentAux_id _ "" (dedupAdjacentAux_chain _ "")]
  rw [h4, h1]

/-- C6 witness: idempotence at a concrete tag-free subtitle text. -/
theorem c6_clean_idempotent_no_tags_witness :
    clean_vtt (clean_vtt "WEBVTT\n\n00:00:00.000 --> 00:00:01.000\nHello\n\nHello\n")
      = clean_vtt "WEBVTT\n\n00:00:00.000 --> 00:00:01.000\nHello\n\nHello\n" :=
  c6_clean_idempotent_no_tags "WEBVTT\n\n00:00:00.000 --> 00:00:01.000\nHello\n\nHello\n"
    (by decide)

lemma gtSplit_none_iff (cs : List Char) : gtSplit cs = none ↔ '>' ∉ cs := by
  induction cs with
  | nil => simp [gtSplit]
  | cons c rest ih =>
    by_cases hc : c = '>'
    · subst hc; simp [gtSplit]
    · simp [gtSplit, hc, Option.map_eq_none', ih]
      exact fun _ hh => hc hh.symm

lemma gtSplit_some_iff (cs : List Char) :
    ∀ b a, gtSplit cs = some (b, a) ↔ cs = b ++ '>' :: a ∧ '>' ∉ b := by
  induction cs with
  | nil =>
    intro b a
    simp [gtSplit]
  | cons c rest ih =>
    intro b a
    by_cases hc : c = '>'
    · subst hc
      rcases b with _ | ⟨d, b2⟩
      · simp [gtSplit]
      · simp only [gtSplit, List.cons_append]
        constructor
        · intro hh; cases hh
        · rintro ⟨h1, h2⟩
          obtain ⟨rfl, -⟩ : '>' = d ∧ rest = b2 ++ '>' :: a := by
            exact ⟨(List.cons.inj h1).1, (List.cons.inj h1).2⟩
          exact absurd (by simp) h2
    · rcases b with _ | ⟨d, b2⟩
      · constructor
        · intro hh
          rcases hmap : gtSplit rest with _ | p
          · rw [gtSplit, hmap] at hh
            · cases hh
            · exact hc
          · rw [gtSplit, hmap] at hh
            · cases hh
            · exact hc
        · rintro ⟨h1, -⟩
          exact absurd (List.cons.inj h1).1 hc
      · constructor
        · intro hh
          rcases hmap : gtSplit rest with _ | ⟨b3, a3⟩
          · rw [gtSplit, hmap] at hh
            · cases hh
            · exact hc
          · rw [gtSplit, hmap] at hh
            · simp only [Option.map_some', Option.some.injEq, Prod.mk.injEq] at hh
              obtain ⟨hh1, hh2⟩ := hh
              have hcd : c = d := (List.cons.inj hh1).1
              have hb : b3 = b2 := (List.cons.inj hh1).2
              obtain ⟨hr, hnb⟩ := (ih b3 a3).mp hmap
              constructor
              · rw [hr, hcd, hb, hh2]
                rfl
              · intro hmem
                rcases List.mem_cons.mp hmem with h1 | h2
                · rw [← hcd] at h1; exact hc h1.symm
                · rw [← hb] at h2; exact hnb h2
            · exact hc
        · rintro ⟨h1, h2⟩
          have hcd : c = d := (List.cons.inj h1).1
          have hr : rest = b2 ++ '>' :: a := (List.cons.inj h1).2
          have hnb : '>' ∉ b2 := fun hm => h2 (by simp [hm])
          have hsome := (ih b2 a).mpr ⟨hr, hnb⟩
          rw [gtSplit, hsome]
          · rw [hcd]
            rfl
          · exact hc

lemma hasTag_iff (cs : List Char) :
    hasTagChars cs = true ↔
      ∃ a b c2, cs = a ++ '<' :: (b ++ '>' :: c2) ∧ b ≠ [] ∧ '>' ∉ b := by
  induction cs with
  | nil =>
    simp [hasTagChars]
  | cons c rest ih =>
    rw [hasTagChars]
    constructor
    · intro hh
      rw [Bool.or_eq_true] at hh
      rcases hh with h1 | h2
      · by_cases hc : c = '<'
        · subst hc
          rw [if_pos rfl] at h1
          rcases hmap : gtSplit rest with _ | ⟨b3, a3⟩
          · rw [hmap] at h1; cases h1
          · rw [hmap] at h1
            obtain ⟨hr, hnb⟩ := (gtSplit_some_iff rest b3 a3).mp hmap
            exact ⟨[], b3, a3, by rw [hr]; rfl, by simpa using h1, hnb⟩
        · rw [if_neg hc] at h1; cases h1
      · obtain ⟨a, b, c2, hr, hb, hnb⟩ := ih.mp h2
        exact ⟨c :: a, b, c2, by rw [hr]; rfl, hb, hnb⟩
    · rintro ⟨a, b, c2, hr, hb, hnb⟩
      rcases a with _ | ⟨d, a2⟩
      · rw [List.nil_append] at hr
        have hcd : c = '<' := (List.cons.inj hr).1
        have hrest : rest = b ++ '>' :: c2 := (List.cons.inj hr).2
        have hsome := (gtSplit_some_iff rest b c2).mpr ⟨hrest, hnb⟩
        rw [Bool.or_eq_true]
        left
        rw [hcd, if_pos rfl, hsome]
        simpa using hb
      · rw [List.cons_append] at hr
        have hrest : rest = a2 ++ '<' :: (b ++ '>' :: c2) := (List.cons.inj hr).2
        rw [Bool.or_eq_true]
        exact Or.inr (ih.mpr ⟨a2, b, c2, hrest, hb, hnb⟩)

lemma hasTag_infix (l1 l2 : List Char) (hinf : l1 <:+: l2)
    (h2 : hasTagChars l2 = false) : hasTagChars l1 = false := by
  by_contra hcon
  have h1 : hasTagChars l1 = true := by
    revert hcon; cases hasTagChars l1 <;> simp
  obtain ⟨a, b, c2, hr, hb, hnb⟩ := (hasTag_iff l1).mp h1
  obtain ⟨s, t, hst⟩ := hinf
  have : hasTagChars l2 = true := by
    apply (hasTag_iff l2).mpr
    refine ⟨s ++ a, b, c2 ++ t, ?_, hb, hnb⟩
    rw [← hst, hr]
    simp
  rw [this] at h2
  cases h2

lemma hasTag_no_gt (cs : List Char) (h : '>' ∉ cs) : hasTagChars cs = false := by
  by_contra hcon
  have h1 : hasTagChars cs = true := by
    revert hcon; cases hasTagChars cs <;> simp
  obtain ⟨a, b, c2, hr, -, -⟩ := (hasTag_iff cs).mp h1
  apply h
  rw [hr]
  simp

lemma stripTagsGo_tagFree (cs : List Char) :
    ∀ (buf : Option (List Char)), '>' ∉ buf.getD [] →
      hasTagChars (stripTagsGo buf cs) = false := by
  induction cs with
  | nil =>
    intro buf hbuf
    cases buf with
    | none => rfl
    | some content =>
      show hasTagChars ('<' :: content) = false
      rw [hasTagChars, if_pos rfl,
        (gtSplit_none_iff content).mpr (by simpa using hbuf),
        hasTag_no_gt content (by simpa using hbuf)]
      rfl
  | cons c rest ih =>
    intro buf hbuf
    cases buf with
    | none =>
      by_cases hc : c = '<'
      · subst hc
        show hasTagChars (stripTagsGo (some []) rest) = false
        exact ih (some []) (by simp)
      · show hasTagChars (stripTagsGo none (c :: rest)) = false
        rw [stripTagsGo, if_neg hc, hasTagChars, if_neg hc]
        simp only [Bool.false_or]
        exact ih none (by simp)
    | some content =>
      by_cases hc : c = '>'
      · subst hc
        rw [stripTagsGo, if_pos rfl]
        by_cases hemp : content.isEmpty
        · rw [if_pos hemp]
          rw [hasTagChars, if_pos rfl,
            show gtSplit ('>' :: stripTagsGo none rest)
              = some ([], stripTagsGo none rest) from rfl]
          simp only [List.isEmpty_nil, Bool.not_true, Bool.false_or]
          rw [hasTagChars, if_neg (by decide : ¬ '>' = '<')]
          simp only [Bool.false_or]
          exact ih none (by simp)
        · rw [if_neg hemp]
          exact ih none (by simp)
      · rw [stripTagsGo, if_neg hc]
        apply ih (some (content ++ [c]))
        simp only [Option.getD_some]
        intro hm
        rcases List.mem_append.mp hm with h1 | h2
        · exact hbuf (by simpa using h1)
        · simp at h2
          exact hc h2.symm

lemma stripTags_tagFree (s : String) : hasTagChars (stripTags s).toList = false :=
  stripTagsGo_tagFree s.toList none (by simp)

lemma stripTagsGo_mem (cs : List Char) :
    ∀ (buf : Option (List Char)) (c : Char), c ∈ stripTagsGo buf cs →
      c ∈ Option.elim buf cs (fun content => '<' :: (content ++ cs)) := by
  induction cs with
  | nil =>
    intro buf c hc
    cases buf with
    | none => cases hc
    | some content =>
      rw [show stripTagsGo (some content) [] = '<' :: content from rfl] at hc
      simpa using hc
  | cons d rest ih =>
    intro buf c hc
    cases buf with
    | none =>
      by_cases hd : d = '<'
      · subst hd
        have := ih (some []) c hc
        simpa using this
      · rw [stripTagsGo, if_neg hd] at hc
        rcases List.mem_cons.mp hc with h1 | h2
        · simp [h1]
        · have := ih none c h2
          simp at this
          simp [this]
    | some content =>
      by_cases hd : d = '>'
      · subst hd
        rw [stripTagsGo, if_pos rfl] at hc
        by_cases hemp : content.isEmpty
        · rw [if_pos hemp] at hc
          have hce : content = [] := by simpa [List.isEmpty_iff] using hemp
          subst hce
          rcases List.mem_cons.mp hc with h1 | h2
          · simp [h1]
          · rcases List.mem_cons.mp h2 with h3 | h4
            · simp [h3]
            · have := ih none c h4
              simp at this
              simp [this]
        · rw [if_neg hemp] at hc
          have := ih none c hc
          simp at this
          simp [this]
      · rw [stripTagsGo, if_neg hd] at hc
        have := ih (some (content ++ [d])) c hc
        simp only [Option.elim_some] at this ⊢
        rcases List.mem_cons.mp this with h1 | h2
        · simp [h1]
        · rcases List.mem_append.mp h2 with h3 | h4
          · rcases List.mem_append.mp h3 with h5 | h6
            · simp [h5]
            · simp at h6
              simp [h6]
          · simp [h4]

lemma stripTags_mem (s : String) (c : Char) (hc : c ∈ (stripTags s).toList) :
    c ∈ s.toList := by
  have := stripTagsGo_mem s.toList none c hc
  simpa using this

lemma splitLinesAux_infix :
    ∀ (cs acc : List Char), ∀ l ∈ splitLinesAux cs acc,
      l.toList <:+: (acc.reverse ++ cs) := by
  intro cs acc
  induction cs, acc using splitLinesAux.induct with
  | case1 acc hemp =>
    intro l hl
    rw [splitLinesAux, if_pos hemp] at hl
    cases hl
  | case2 acc hemp =>
    intro l hl
    rw [splitLinesAux, if_neg hemp] at hl
    simp only [List.mem_singleton] at hl
    subst hl
    exact ⟨[], [], by simp⟩
  | case3 rest acc ih =>
    intro l hl
    rw [splitLinesAux.eq_2] at hl
    rcases List.mem_cons.mp hl with h1 | h2
    · subst h1; exact ⟨[], '\r' :: '\n' :: rest, by simp⟩
    · have h3 : l.toList <:+: rest := by simpa using ih l h2
      exact h3.trans ⟨acc.reverse ++ ['\r', '\n'], [], by simp⟩
  | case4 rest acc hne ih =>
    intro l hl
    rw [splitLinesAux.eq_3 _ _ hne] at hl
    rcases List.mem_cons.mp hl with h1 | h2
    · subst h1; exact ⟨[], '\r' :: rest, by simp⟩
    · have h3 : l.toList <:+: rest := by simpa using ih l h2
      exact h3.trans ⟨acc.reverse ++ ['\r'], [], by simp⟩
  | case5 rest acc ih =>
    intro l hl
    rw [splitLinesAux.eq_4] at hl
    rcases List.mem_cons.mp hl with h1 | h2
    · subst h1; exact ⟨[], '\n' :: rest, by simp⟩
    · have h3 : l.toList <:+: rest := by simpa using ih l h2
      exact h3.trans ⟨acc.reverse ++ ['\n'], [], by simp⟩
  | case6 c2 rest acc hno1 hno2 hno3 ih =>
    intro l hl
    rw [splitLinesAux.eq_5 _ _ _ hno1 hno2 hno3] at hl
    have h3 := ih l hl
    simpa using h3

lemma pySplitlines_infix (t : String) : ∀ l ∈ pySplitlines t, l.toList <:+: t.toList := by
  intro l hl
  simpa using splitLinesAux_infix t.toList [] l hl

lemma stripChars_infix (cs : List Char) : stripChars cs <:+: cs := by
  rw [stripChars_eq_rdrop]
  exact (List.rdropWhile_prefix pyIsSpace (cs.dropWhile pyIsSpace)).isInfix.trans
    (List.dropWhile_suffix pyIsSpace).isInfix

lemma infix_of_sep_infix (A B seg : List Char) (hseg : '\n' ∉ seg)
    (hinf : seg <:+: (A ++ '\n' :: B)) : seg <:+: A ∨ seg <:+: B := by
  obtain ⟨s, t, hst⟩ := hinf
  by_cases hle : s.length + seg.length ≤ A.length
  · left
    have h1 : s ++ seg = A.take (s.length + seg.length) := by
      have h2 := congrArg (List.take (s.length + seg.length)) hst
      rw [show s ++ seg ++ t = (s ++ seg) ++ t from by simp,
        List.take_left' (by simp)] at h2
      rw [h2, List.take_append_eq_append_take,
        Nat.sub_eq_zero_of_le hle, List.take_zero, List.append_nil]
    have h2 : (s ++ seg) <+: A := by
      rw [h1]
      exact List.take_prefix _ _
    exact (List.suffix_append s seg).isInfix.trans h2.isInfix
  · rcases hsegc : seg with _ | ⟨c0, seg2⟩
    · left
      exact ⟨[], A, by simp⟩
    · subst hsegc
      right
      have hgt : A.length < s.length + (c0 :: seg2).length := by omega
      have hgt2 : A.length < s.length + (seg2.length + 1) := by simpa using hgt
      have hsl : A.length < s.length := by
        by_contra hsl2
        push_neg at hsl2
        have hXl : (s ++ (c0 :: seg2) ++ t)[A.length]?
            = (c0 :: seg2)[A.length - s.length]? := by
          rw [show s ++ (c0 :: seg2) ++ t = (s ++ (c0 :: seg2)) ++ t from by simp,
            List.getElem?_append_left (by simp; omega),
            List.getElem?_append_right hsl2]
        have hXr : (A ++ '\n' :: B)[A.length]? = some '\n' := by
          rw [List.getElem?_append_right (Nat.le_refl _)]
          simp
        rw [hst, hXr] at hXl
        have hmem : '\n' ∈ c0 :: seg2 := List.getElem?_mem hXl.symm
        exact hseg hmem
      have hdropl : (s ++ (c0 :: seg2) ++ t).drop s.length = (c0 :: seg2) ++ t := by
        rw [show s ++ (c0 :: seg2) ++ t = s ++ ((c0 :: seg2) ++ t) from by simp,
          List.drop_left' rfl]
      have hdropr : (A ++ '\n' :: B).drop s.length
          = B.drop (s.length - (A.length + 1)) := by
        rw [List.drop_append_eq_append_drop,
          List.drop_eq_nil_of_le (by omega), List.nil_append]
        have hk : s.length - A.length = (s.length - (A.length + 1)) + 1 := by omega
        rw [hk, List.drop_succ_cons]
      have hpre : (c0 :: seg2) ++ t = B.drop (s.length - (A.length + 1)) := by
        rw [← hdropl, hst, hdropr]
      have h3 : (c0 :: seg2) <+: B.drop (s.length - (A.length + 1)) := by
        rw [← hpre]
        exact ⟨t, rfl⟩
      exact h3.isInfix.trans (List.drop_suffix _ _).isInfix

lemma cleanedOf_mem_tagfree (L : List String)
    (hL : ∀ l ∈ L, ∀ c ∈ l.toList, c ≠ '\n') :
    ∀ m ∈ cleanedOf L, hasTagChars m.toList = false ∧ ∀ c ∈ m.toList, c ≠ '\n' := by
  induction L with
  | nil => intro m hm; cases hm
  | cons x rest ih =>
    intro m hm
    have hrest : ∀ l ∈ rest, ∀ c ∈ l.toList, c ≠ '\n' := fun l hl => hL l (by simp [hl])
    rw [cleanedOf] at hm
    by_cases he : pyStrip x = ""
    · exact ih hrest m (by simpa [he] using hm)
    · by_cases hh : headerLine (pyStrip x) = true
      · exact ih hrest m (by simpa [he, hh] using hm)
      · by_cases ht : tsMatch (pyStrip x) = true
        · exact ih hrest m (by simpa [he, hh, ht] using hm)
        · by_cases hs : stripTags (pyStrip x) = ""
          · exact ih hrest m (by simpa [he, hh, ht, hs] using hm)
          · have hm2 : m = stripTags (pyStrip x) ∨ m ∈ cleanedOf rest := by
              simpa [he, hh, ht, hs] using hm
            rcases hm2 with h1 | h2
            · subst h1
              refine ⟨stripTags_tagFree _, ?_⟩
              intro c hc
              exact hL x (by simp) c (pyStrip_mem c x (stripTags_mem _ c hc))
            · exact ih hrest m h2

lemma infix_joinNl (seg : List Char) (hseg : '\n' ∉ seg) :
    ∀ L : List String, (seg <:+: (joinNl L).toList) →
      seg = [] ∨ ∃ m ∈ L, seg <:+: m.toList := by
  intro L
  induction L with
  | nil =>
    intro hinf
    left
    obtain ⟨s, t, hst⟩ := hinf
    have hst2 : s ++ seg ++ t = ([] : List Char) := hst
    simp only [List.append_eq_nil] at hst2
    exact hst2.1.2
  | cons x rest ih =>
    cases rest with
    | nil =>
      intro hinf
      right
      exact ⟨x, by simp, by simpa using hinf⟩
    | cons y rest2 =>
      intro hinf
      have hdata : (joinNl (x :: y :: rest2)).toList
          = x.toList ++ '\n' :: (joinNl (y :: rest2)).toList := by
        show (x ++ "\n" ++ joinNl (y :: rest2)).data = _
        simp [String.data_append]
      rw [hdata] at hinf
      rcases infix_of_sep_infix _ _ _ hseg hinf with h1 | h2
      · right; exact ⟨x, by simp, h1⟩
      · rcases ih h2 with h3 | ⟨m, hm, h4⟩
        · left; exact h3
        · right; exact ⟨m, by simp [hm], h4⟩

/-- C7 (amended): for every input, no line of the output of `_clean_vtt`
contains an angle-bracket tag (a `<`, at least one non-`>` character,
then a `>`); and for every input containing no `<` character, no output
line begins with a format header marker or matches the timing-range
pattern. When the input carries tags, stripping them can expose a header
or timing line in the output (see the counterexample). -/
theorem c7_no_markup_in_output (s l : String) :
    (l ∈ pySplitlines (clean_vtt s) → hasTagChars l.toList = false) ∧
    ('<' ∉ s.toList → l ∈ pySplitlines (clean_vtt s) →
      headerLine l = false ∧ tsMatch l = false) := by
  constructor
  · intro hl
    have hLprops : ∀ m ∈ dedupAdjacent (cleanedOf (pySplitlines s)),
        hasTagChars m.toList = false ∧ ∀ c ∈ m.toList, c ≠ '\n' := by
      intro m hm
      exact cleanedOf_mem_tagfree (pySplitlines s)
        (fun l2 hl2 c hc => (pySplitlines_chars s l2 hl2 c hc).2.1) m
        (dedupAdjacentAux_subset "" _ m hm)
    have hinf1 : l.toList <:+: (clean_vtt s).toList := pySplitlines_infix _ l hl
    have hinf2 : (clean_vtt s).toList
        <:+: (joinNl (dedupAdjacent (cleanedOf (pySplitlines s)))).toList :=
      stripChars_infix (joinNl (dedupAdjacent (cleanedOf (pySplitlines s)))).toList
    have hnl : '\n' ∉ l.toList := fun hmem =>
      (pySplitlines_chars (clean_vtt s) l hl '\n' hmem).2.1 rfl
    rcases infix_joinNl l.toList hnl _ (hinf1.trans hinf2) with h0 | ⟨m, hm, hminf⟩
    · rw [h0]; rfl
    · exact hasTag_infix l.toList m.toList hminf (hLprops m hm).1
  · intro h hl
    obtain ⟨h1, h2, h3, h4⟩ := clean_vtt_no_lt s h
    rw [h2] at hl
    have hp := h3 l hl
    exact ⟨hp.2.2.1, hp.2.2.2.1⟩

/-- C7 witness: the amended theorem applied at a tag-carrying input for
the tag clause and at a tag-free input for the header/timing clause. -/
theorem c7_no_markup_in_output_witness :
    hasTagChars ("Kind: captions").toList = false ∧
    (headerLine "Hello" = false ∧ tsMatch "Hello" = false) :=
  ⟨(c7_no_markup_in_output "<c>Kind: captions</c>" "Kind: captions").1 (by decide),
   (c7_no_markup_in_output "Hello" "Hello").2 (by decide) (by decide)⟩

end YtAnalyzer
